import Mathlib

/-!
Verification of the git-history-sidebar core against its specification.

The TypeScript sources are shallowly embedded:
* TS strings are modelled as lists of characters (`Str := List Char`);
  string literals are injected with `strL`.
* `Array.prototype.sort` (stable since ES2019) is modelled by a stable
  insertion sort `sortLe`; a stable sort's output is uniquely determined
  by the comparator, so any stable sort is a faithful model.
* `localeCompare` is modelled as code-point lexicographic comparison.
* External collaborators (node `path.normalize`/`path.join`, the
  `Date` → ISO-string conversion, and the `simple-git` subprocess
  wrapper) are passed in explicitly as function parameters, mirroring
  their role as black boxes in the specification.
* JS `Map` objects are modelled as association lists with
  replace-or-append insertion.
* Methods that perform git queries return, besides their result and the
  updated service state, a `Bool` recording whether the underlying git
  subprocess was consulted during the call.
-/

/-- Model of a TypeScript string: a list of characters. -/
abbrev Str := List Char

/-- Injection of a Lean string literal into the model. -/
def strL (s : String) : Str := s.toList

/-- Character class of the regex `[a-f0-9]` used by the blame-header
pattern (lower-case hex digits only, as in the source). -/
def isHexLower (c : Char) : Bool :=
  (('a' ≤ c) && (c ≤ 'f')) || (('0' ≤ c) && (c ≤ '9'))

/-- Character class of the regex `\d`. -/
def isDigitCh (c : Char) : Bool :=
  ('0' ≤ c) && (c ≤ '9')

/-- Character class of the regex `\s` (modelled for the ASCII whitespace
characters that can occur in git output). -/
def isWsCh (c : Char) : Bool :=
  (c = ' ') || (c = '\t') || (c = '\n') || (c = '\r') || (c = '\x0b') || (c = '\x0c')

/-- Code-point lexicographic order on strings; the model of
`localeCompare(x) ≤ 0` (see the file header). -/
def strLe : Str → Str → Bool
  | [], _ => true
  | _ :: _, [] => false
  | a :: as, b :: bs =>
    if a.toNat < b.toNat then true
    else if b.toNat < a.toNat then false
    else strLe as bs

theorem strLe_total (a b : Str) : strLe a b = true ∨ strLe b a = true := by
  induction a generalizing b with
  | nil => left; rfl
  | cons x xs ih =>
    cases b with
    | nil => right; rfl
    | cons y ys =>
      by_cases h1 : x.toNat < y.toNat
      · left; simp [strLe, h1]
      · by_cases h2 : y.toNat < x.toNat
        · right; simp [strLe, h2]
        · rcases ih ys with h | h
          · left; simp [strLe, h1, h2, h]
          · right; simp [strLe, h1, h2, h]

theorem strLe_trans {a b c : Str} (h1 : strLe a b = true) (h2 : strLe b c = true) :
    strLe a c = true := by
  induction a generalizing b c with
  | nil => rfl
  | cons x xs ih =>
    cases b with
    | nil => simp [strLe] at h1
    | cons y ys =>
      cases c with
      | nil => simp [strLe] at h2
      | cons z zs =>
        simp only [strLe] at h1 h2 ⊢
        by_cases hxy : x.toNat < y.toNat
        · by_cases hyz : y.toNat < z.toNat
          · simp [Nat.lt_trans hxy hyz]
          · by_cases hzy : z.toNat < y.toNat
            · simp [hyz, hzy] at h2
            · have : y.toNat = z.toNat := Nat.le_antisymm (Nat.le_of_not_lt hzy) (Nat.le_of_not_lt hyz)
              simp [this ▸ hxy]
        · by_cases hyx : y.toNat < x.toNat
          · simp [hxy, hyx] at h1
          · have hxyeq : x.toNat = y.toNat := Nat.le_antisymm (Nat.le_of_not_lt hyx) (Nat.le_of_not_lt hxy)
            simp only [hxy, if_neg, hyx, if_false, if_true] at h1
            by_cases hyz : y.toNat < z.toNat
            · simp [hxyeq ▸ hyz]
            · by_cases hzy : z.toNat < y.toNat
              · simp [hyz, hzy] at h2
              · simp only [hyz, hzy, if_false] at h2
                simp [hxyeq ▸ hyz, hxyeq ▸ hzy, ih h1 h2]

/-- Stable insertion of an element into a list, keeping it before the
first element it is `le`-below. -/
def insertLe (le : α → α → Bool) (a : α) : List α → List α
  | [] => [a]
  | b :: l => if le a b then a :: b :: l else b :: insertLe le a l

/-- Stable sort by the boolean comparator `le`; the model of the stable
`Array.prototype.sort`. -/
def sortLe (le : α → α → Bool) : List α → List α
  | [] => []
  | a :: l => insertLe le a (sortLe le l)

theorem insertLe_perm (le : α → α → Bool) (a : α) (l : List α) :
    List.Perm (insertLe le a l) (a :: l) := by
  induction l with
  | nil => rfl
  | cons b l ih =>
    by_cases h : le a b = true
    · simp [insertLe, h]
    · simp only [insertLe, h, if_false]
      exact List.Perm.trans (List.Perm.cons b ih) (List.Perm.swap a b l)

theorem sortLe_perm (le : α → α → Bool) (l : List α) :
    List.Perm (sortLe le l) l := by
  induction l with
  | nil => rfl
  | cons a l ih =>
    exact List.Perm.trans (insertLe_perm le a (sortLe le l)) (List.Perm.cons a ih)

theorem mem_insertLe {le : α → α → Bool} {a x : α} {l : List α}
    (h : x ∈ insertLe le a l) : x = a ∨ x ∈ l := by
  induction l with
  | nil =>
    simp only [insertLe, List.mem_singleton] at h
    exact Or.inl h
  | cons b l ih =>
    by_cases hab : le a b = true
    · have h2 : x ∈ a :: b :: l := by simpa only [insertLe, hab, if_true] using h
      rcases List.mem_cons.mp h2 with h1 | h1
      · exact Or.inl h1
      · exact Or.inr h1
    · have h2 : x ∈ b :: insertLe le a l := by simpa only [insertLe, hab, if_false] using h
      rcases List.mem_cons.mp h2 with h1 | h1
      · exact Or.inr (by simp [h1])
      · rcases ih h1 with h3 | h3
        · exact Or.inl h3
        · exact Or.inr (by simp [h3])

theorem insertLe_pairwise {le : α → α → Bool}
    (htrans : ∀ a b c, le a b = true → le b c = true → le a c = true)
    (htotal : ∀ a b, le a b = true ∨ le b a = true)
    {a : α} {l : List α} (h : List.Pairwise (fun x y => le x y = true) l) :
    List.Pairwise (fun x y => le x y = true) (insertLe le a l) := by
  induction l with
  | nil => simp [insertLe]
  | cons b l ih =>
    rcases List.pairwise_cons.mp h with ⟨hb, hl⟩
    by_cases hab : le a b = true
    · simp only [insertLe, hab, if_true]
      refine List.pairwise_cons.mpr ⟨?_, h⟩
      intro x hx
      rcases List.mem_cons.mp hx with hx | hx
      · exact hx ▸ hab
      · exact htrans a b x hab (hb x hx)
    · simp only [insertLe, hab, if_false]
      refine List.pairwise_cons.mpr ⟨?_, ih hl⟩
      intro x hx
      rcases mem_insertLe hx with hx | hx
      · subst hx
        rcases htotal x b with h1 | h1
        · exact absurd h1 hab
        · exact h1
      · exact hb x hx

theorem sortLe_pairwise {le : α → α → Bool}
    (htrans : ∀ a b c, le a b = true → le b c = true → le a c = true)
    (htotal : ∀ a b, le a b = true ∨ le b a = true) (l : List α) :
    List.Pairwise (fun x y => le x y = true) (sortLe le l) := by
  induction l with
  | nil => simp [sortLe]
  | cons a l ih => exact insertLe_pairwise htrans htotal ih

/-- Model of JS `String.prototype.split` with a single-character
separator: `"".split(sep) = [""]`, separators delimit (possibly empty)
fields. -/
def splitOnChar (sep : Char) : Str → List Str
  | [] => [[]]
  | c :: rest =>
    if c = sep then [] :: splitOnChar sep rest
    else
      match splitOnChar sep rest with
      | h :: t => (c :: h) :: t
      | [] => [[c]]

theorem splitOnChar_ne_nil (sep : Char) (cs : Str) : splitOnChar sep cs ≠ [] := by
  cases cs with
  | nil => simp [splitOnChar]
  | cons c rest =>
    by_cases h : c = sep
    · simp [splitOnChar, h]
    · simp only [splitOnChar, h, if_false]
      cases splitOnChar sep rest with
      | nil => simp
      | cons x xs => simp

theorem splitOnChar_append_cons {sep : Char} {pre : Str} (hpre : ∀ c ∈ pre, c ≠ sep)
    (rest : Str) :
    splitOnChar sep (pre ++ sep :: rest) = pre :: splitOnChar sep rest := by
  induction pre with
  | nil => simp [splitOnChar]
  | cons c pre ih =>
    have hc : c ≠ sep := hpre c (by simp)
    have ih' := ih (fun x hx => hpre x (by simp [hx]))
    simp only [List.cons_append, splitOnChar, hc, if_false]
    rw [show pre.append (sep :: rest) = pre ++ sep :: rest from rfl, ih']

theorem splitOnChar_no_sep {sep : Char} {cs : Str} (h : ∀ c ∈ cs, c ≠ sep) :
    splitOnChar sep cs = [cs] := by
  induction cs with
  | nil => rfl
  | cons c rest ih =>
    have hc : c ≠ sep := h c (by simp)
    have ih' := ih (fun x hx => h x (by simp [hx]))
    simp [splitOnChar, hc, ih']

/-- Value of a list of decimal digits (most significant first). -/
def natFromDigits (cs : Str) : Nat :=
  cs.foldl (fun acc c => acc * 10 + (c.toNat - '0'.toNat)) 0

/-- Model of JS `parseInt(s, 10)`: skip leading whitespace, read an
optional sign and then a leading run of decimal digits; `none` models
the `NaN` result when no digit is found. -/
def jsParseInt (cs : Str) : Option Int :=
  match cs.dropWhile isWsCh with
  | [] => none
  | c :: r =>
    if c = '-' then
      if (r.takeWhile isDigitCh) = [] then none
      else some (-(natFromDigits (r.takeWhile isDigitCh) : Int))
    else if c = '+' then
      if (r.takeWhile isDigitCh) = [] then none
      else some ((natFromDigits (r.takeWhile isDigitCh) : Int))
    else
      if ((c :: r).takeWhile isDigitCh) = [] then none
      else some ((natFromDigits ((c :: r).takeWhile isDigitCh) : Int))

/-- Model of JS `s.replace(/\\/g, '/')`. -/
def replaceBackslashes (cs : Str) : Str :=
  cs.map (fun c => if c = '\\' then '/' else c)

theorem replaceBackslashes_eq_self {cs : Str} (h : '\\' ∉ cs) :
    replaceBackslashes cs = cs := by
  induction cs with
  | nil => rfl
  | cons c rest ih =>
    have hc : c ≠ '\\' := fun hc => h (by simp [hc])
    have : '\\' ∉ rest := fun hr => h (by simp [hr])
    simp only [replaceBackslashes, List.map_cons]
    rw [if_neg (fun hcc => hc hcc)]
    simpa [replaceBackslashes] using ih this

/-- Model of JS `String.prototype.trim` (used only through its
truthiness: a line is kept when its trim is non-empty). -/
def trimWs (cs : Str) : Str :=
  (((cs.dropWhile isWsCh).reverse).dropWhile isWsCh).reverse

/-! ## BlameParser (GitService.parseBlameOutput) -/

/-- Per-line blame record (`BlameLineInfo` in gitService). -/
structure BlameLineInfo where
  lineNumber : Nat
  commitHash : Str
  author : Str
  date : Str
  summary : Str
deriving DecidableEq, Repr

/-- Incrementally populated per-commit metadata: the
`Partial<BlameLineInfo>` objects stored in the parser's `commitCache`. -/
structure CommitMeta where
  commitHash : Str
  author : Option Str := none
  date : Option Str := none
  summary : Option Str := none
deriving DecidableEq, Repr

/-- Final piece of the header regex: a space followed by a digit run
(nothing is required afterwards, the regex has no end anchor). -/
def matchHeaderNums : Str → Bool
  | [] => false
  | c :: r3 => (c == ' ') && (!((r3.takeWhile isDigitCh) == []))

/-- Tail of the header regex after the hash: a space, a digit run, then
`matchHeaderNums`. -/
def matchHeaderTail : Str → Bool
  | [] => false
  | c :: r =>
    (c == ' ') && (!((r.takeWhile isDigitCh) == []))
      && matchHeaderNums (r.drop (r.takeWhile isDigitCh).length)

/-- Model of the test `line.match(/^[a-f0-9]{40} \d+ \d+/)`:
forty lower-case hex digits, a space, a digit run, a space, a digit run. -/
def matchBlameHeader (cs : Str) : Bool :=
  let hash := cs.take 40
  (hash.length == 40) && hash.all isHexLower && matchHeaderTail (cs.drop 40)

/-- Fields read from a matched header line:
`parts = line.split(' '); parts[0]` is the hash and
`parseInt(parts[2], 10)` the (final) line number.  Under the regex guard
`parts[2]` starts with a digit, so `parseInt` equals the value of the
leading digit run. -/
def headerFields (cs : Str) : Str × Nat :=
  let parts := splitOnChar ' ' cs
  (parts.getD 0 [], natFromDigits ((parts.getD 2 []).takeWhile isDigitCh))

/-- Mutable state of the `parseBlameOutput` loop. -/
structure BlameParseState where
  acc : List BlameLineInfo
  commitCache : List (Str × CommitMeta)
  currentCommitHash : Str
deriving DecidableEq, Repr

/-- Lookup in the per-commit metadata cache (`commitCache.get`). -/
def metaLookup (cache : List (Str × CommitMeta)) (h : Str) : Option CommitMeta :=
  (cache.find? (fun p => p.1 == h)).map (fun p => p.2)

/-- In-place mutation of the cached metadata object for hash `h`
(a no-op when no entry exists, mirroring the `if (commitInfo)` guards). -/
def metaUpdate (cache : List (Str × CommitMeta)) (h : Str) (f : CommitMeta → CommitMeta) :
    List (Str × CommitMeta) :=
  cache.map (fun p => if p.1 == h then (p.1, f p.2) else p)

/-- JavaScript `x || d` on an optional string field: both `undefined`
and the empty string are falsy, so either falls back to `d`. -/
def jsOrStr (o : Option Str) (d : Str) : Str :=
  match o with
  | none => d
  | some s => if s = [] then d else s

theorem jsOrStr_some_ne {s : Str} (d : Str) (h : s ≠ []) : jsOrStr (some s) d = s := by
  simp [jsOrStr, h]

theorem jsOrStr_some_nilD (s : Str) : jsOrStr (some s) [] = s := by
  by_cases h : s = [] <;> simp [jsOrStr, h]

/-- Branch of `blameStep` taken for a matched header line: the pushed
record snapshots the metadata cached for this hash so far, each field
run through JS `||` with the placeholder values `'Unknown'` /
parse-time date / `''` for fields not yet seen (or cached as the
falsy empty string). -/
def blameStepHeader (nowISO : Str) (st : BlameParseState) (line : Str) : BlameParseState :=
  let hn := headerFields line
  let found := metaLookup st.commitCache hn.1
  let info := found.getD { commitHash := hn.1 }
  let cache2 := match found with
    | some _ => st.commitCache
    | none => st.commitCache ++ [(hn.1, ({ commitHash := hn.1 } : CommitMeta))]
  let pushed : BlameLineInfo :=
    { lineNumber := hn.2, commitHash := hn.1,
      author := jsOrStr info.author (strL "Unknown"),
      date := jsOrStr info.date nowISO,
      summary := jsOrStr info.summary [] }
  { acc := st.acc ++ [pushed], commitCache := cache2, currentCommitHash := hn.1 }

/-- Branches of `blameStep` taken for non-header lines (the `else if`
chain over the metadata prefixes). -/
def blameStepMeta (toISO : Int → Str) (st : BlameParseState) (line : Str) :
    Option BlameParseState :=
  if (strL "author ").isPrefixOf line then
    if st.currentCommitHash ≠ [] then
      let cache2 := metaUpdate st.commitCache st.currentCommitHash (fun m => { m with author := some (line.drop 7) })
      some { st with commitCache := cache2 }
    else some st
  else if (strL "author-time ").isPrefixOf line then
    if st.currentCommitHash ≠ [] then
      match jsParseInt (line.drop 12) with
      | none => none
      | some ts =>
        let cache2 := metaUpdate st.commitCache st.currentCommitHash (fun m => { m with date := some (toISO (ts * 1000)) })
        some { st with commitCache := cache2 }
    else some st
  else if (strL "summary ").isPrefixOf line then
    if st.currentCommitHash ≠ [] then
      let cache2 := metaUpdate st.commitCache st.currentCommitHash (fun m => { m with summary := some (line.drop 8) })
      some { st with commitCache := cache2 }
    else some st
  else
    some st

/-- Processing of one line of porcelain output, following the
if/else-if chain of the source.  `toISO` models
`ms ↦ new Date(ms).toISOString()` and `nowISO` models
`new Date().toISOString()` at parse time; `none` models the `RangeError`
thrown by `toISOString` when `parseInt` produced `NaN`. -/
def blameStep (toISO : Int → Str) (nowISO : Str) (st : BlameParseState) (line : Str) :
    Option BlameParseState :=
  if matchBlameHeader line then some (blameStepHeader nowISO st line)
  else blameStepMeta toISO st line

/-- The parsing loop over the split lines. -/
def runBlameLines (toISO : Int → Str) (nowISO : Str) :
    List Str → BlameParseState → Option BlameParseState
  | [], st => some st
  | l :: ls, st =>
    match blameStep toISO nowISO st l with
    | none => none
    | some st2 => runBlameLines toISO nowISO ls st2

/-- Comparator of the final `blameInfo.sort((a, b) => a.lineNumber - b.lineNumber)`. -/
def blameLe (a b : BlameLineInfo) : Bool :=
  a.lineNumber ≤ b.lineNumber

/-- Model of `GitService.parseBlameOutput`: split on newlines, run the
line loop, then sort by line number.  `none` models an escaping
exception (see `blameStep`). -/
def parseBlameOutput (toISO : Int → Str) (nowISO : Str) (output : Str) :
    Option (List BlameLineInfo) :=
  match runBlameLines toISO nowISO (splitOnChar '\n' output)
      { acc := [], commitCache := [], currentCommitHash := [] } with
  | none => none
  | some st => some (sortLe blameLe st.acc)

/-- Header lines of a porcelain input (the lines the regex accepts). -/
def blameHeaderLines (output : Str) : List Str :=
  (splitOnChar '\n' output).filter matchBlameHeader

/-- The line numbers carried by the header lines, in input order. -/
def blameHeaderNos (output : Str) : List Nat :=
  (blameHeaderLines output).map (fun l => (headerFields l).2)

/-- A line is safe for the `author-time` branch: whenever the branch is
taken, `parseInt` succeeds (so `toISOString` cannot throw). -/
def timeLineOk (line : Str) : Prop :=
  matchBlameHeader line = false →
  (strL "author ").isPrefixOf line = false →
  (strL "author-time ").isPrefixOf line = true →
  jsParseInt (line.drop 12) ≠ none

/-- Valid porcelain blame input: every `author-time` line carries a
parsable timestamp, and the final line numbers of the header lines are a
permutation of `1..N` where `N` is the number of header lines (each
working-tree line is attributed exactly once). -/
def validPorcelain (output : Str) : Prop :=
  (∀ line ∈ splitOnChar '\n' output, timeLineOk line) ∧
    (blameHeaderNos output).Perm (List.range' 1 (blameHeaderLines output).length)

instance (line : Str) : Decidable (timeLineOk line) := by
  unfold timeLineOk
  infer_instance

instance (output : Str) : Decidable (validPorcelain output) := by
  unfold validPorcelain
  infer_instance

/-! ### Supporting lemmas for the blame parser -/

theorem hex_ne_space {c : Char} (h : isHexLower c = true) : c ≠ ' ' := by
  intro e; subst e; exact absurd h (by decide)

theorem hex_ne_newline {c : Char} (h : isHexLower c = true) : c ≠ '\n' := by
  intro e; subst e; exact absurd h (by decide)

theorem digit_not_ws {c : Char} (h : isDigitCh c = true) : isWsCh c = false := by
  cases hw : isWsCh c with
  | false => rfl
  | true =>
    exfalso
    simp only [isWsCh, Bool.or_eq_true, decide_eq_true_eq] at hw
    rcases hw with ((((e | e) | e) | e) | e) | e <;> (subst e; exact absurd h (by decide))

theorem digit_ne_minus {c : Char} (h : isDigitCh c = true) : c ≠ '-' := by
  intro e; subst e; exact absurd h (by decide)

theorem digit_ne_plus {c : Char} (h : isDigitCh c = true) : c ≠ '+' := by
  intro e; subst e; exact absurd h (by decide)

theorem takeWhile_all {p : α → Bool} {l : List α} (h : ∀ x ∈ l, p x = true) :
    l.takeWhile p = l := by
  induction l with
  | nil => rfl
  | cons a l ih =>
    have ha : p a = true := h a (by simp)
    simp [List.takeWhile_cons, ha, ih (fun x hx => h x (by simp [hx]))]

theorem jsParseInt_digits {t : Str} (ht : t ≠ []) (hd : ∀ c ∈ t, isDigitCh c = true) :
    jsParseInt t = some ((natFromDigits t : Int)) := by
  cases t with
  | nil => exact absurd rfl ht
  | cons c r =>
    have hc : isDigitCh c = true := hd c (by simp)
    have hdw : (c :: r).dropWhile isWsCh = c :: r := by
      rw [List.dropWhile_cons, if_neg (by simp [digit_not_ws hc])]
    have htw : (c :: r).takeWhile isDigitCh = c :: r := takeWhile_all hd
    unfold jsParseInt
    rw [hdw]
    show (if c = '-' then _ else if c = '+' then _ else
      if ((c :: r).takeWhile isDigitCh) = [] then none
      else some ((natFromDigits ((c :: r).takeWhile isDigitCh) : Int))) = _
    rw [if_neg (digit_ne_minus hc), if_neg (digit_ne_plus hc), htw, if_neg (by simp)]

theorem all_hex_no_space {h : Str} (hall : h.all isHexLower = true) : ∀ c ∈ h, c ≠ ' ' :=
  fun c hc => hex_ne_space (List.all_eq_true.mp hall c hc)

theorem take40_append {h r : Str} (hh : h.length = 40) : (h ++ r).take 40 = h := by
  rw [← hh, List.take_left]

theorem drop40_append {h r : Str} (hh : h.length = 40) : (h ++ r).drop 40 = r := by
  rw [← hh, List.drop_left]

theorem matchBlameHeader_split {h tail : Str} (hh : h.length = 40)
    (hall : h.all isHexLower = true) :
    matchBlameHeader (h ++ ' ' :: tail) = matchHeaderTail (' ' :: tail) := by
  unfold matchBlameHeader
  rw [take40_append hh, drop40_append hh]
  simp [hh, hall]

theorem matchBlameHeader_elim {line : Str} (hm : matchBlameHeader line = true) :
    ∃ h tail, line = h ++ ' ' :: tail ∧ h.length = 40 ∧ h.all isHexLower = true := by
  unfold matchBlameHeader at hm
  simp only [Bool.and_eq_true] at hm
  obtain ⟨⟨hlen, hall⟩, hm3⟩ := hm
  have hlen' : (line.take 40).length = 40 := by simpa using hlen
  cases hrest : line.drop 40 with
  | nil => rw [hrest] at hm3; exact absurd hm3 (by simp [matchHeaderTail])
  | cons c r =>
    rw [hrest] at hm3
    unfold matchHeaderTail at hm3
    simp only [Bool.and_eq_true] at hm3
    obtain ⟨⟨hsp, _⟩, _⟩ := hm3
    have hc : c = ' ' := by simpa using hsp
    refine ⟨line.take 40, r, ?_, hlen', hall⟩
    conv_lhs => rw [← List.take_append_drop 40 line]
    rw [hrest, hc]

theorem headerFields_split {h tail : Str} (_hh : h.length = 40)
    (hall : h.all isHexLower = true) :
    headerFields (h ++ ' ' :: tail)
      = (h, natFromDigits (((splitOnChar ' ' tail).getD 1 []).takeWhile isDigitCh)) := by
  unfold headerFields
  rw [splitOnChar_append_cons (all_hex_no_space hall)]
  simp [List.getD]

theorem headerFields_hash_of_match {line : Str} (hm : matchBlameHeader line = true) :
    (headerFields line).1.length = 40 := by
  rcases matchBlameHeader_elim hm with ⟨h, tail, rfl, hh, hall⟩
  rw [headerFields_split hh hall]
  exact hh

theorem blameStepMeta_acc {toISO : Int → Str} {st st2 : BlameParseState} {line : Str}
    (hstep : blameStepMeta toISO st line = some st2) : st2.acc = st.acc := by
  unfold blameStepMeta at hstep
  by_cases h1 : (strL "author ").isPrefixOf line = true
  · rw [if_pos h1] at hstep
    by_cases h2 : st.currentCommitHash ≠ []
    · rw [if_pos h2] at hstep
      cases hstep; rfl
    · rw [if_neg h2] at hstep
      cases hstep; rfl
  · rw [if_neg h1] at hstep
    by_cases h3 : (strL "author-time ").isPrefixOf line = true
    · rw [if_pos h3] at hstep
      by_cases h2 : st.currentCommitHash ≠ []
      · rw [if_pos h2] at hstep
        cases hts : jsParseInt (line.drop 12) with
        | none => rw [hts] at hstep; cases hstep
        | some ts => rw [hts] at hstep; cases hstep; rfl
      · rw [if_neg h2] at hstep
        cases hstep; rfl
    · rw [if_neg h3] at hstep
      by_cases h4 : (strL "summary ").isPrefixOf line = true
      · rw [if_pos h4] at hstep
        by_cases h2 : st.currentCommitHash ≠ []
        · rw [if_pos h2] at hstep
          cases hstep; rfl
        · rw [if_neg h2] at hstep
          cases hstep; rfl
      · rw [if_neg h4] at hstep
        cases hstep; rfl

theorem blameStepMeta_isSome (toISO : Int → Str) (st : BlameParseState) {line : Str}
    (hm : matchBlameHeader line = false) (hok : timeLineOk line) :
    (blameStepMeta toISO st line).isSome = true := by
  unfold blameStepMeta
  by_cases h1 : (strL "author ").isPrefixOf line = true
  · rw [if_pos h1]
    by_cases h2 : st.currentCommitHash ≠ []
    · rw [if_pos h2]; rfl
    · rw [if_neg h2]; rfl
  · rw [if_neg h1]
    by_cases h3 : (strL "author-time ").isPrefixOf line = true
    · rw [if_pos h3]
      by_cases h2 : st.currentCommitHash ≠ []
      · rw [if_pos h2]
        have h1f : (strL "author ").isPrefixOf line = false := Bool.eq_false_iff.mpr h1
        have hne := hok hm h1f h3
        cases hts : jsParseInt (line.drop 12) with
        | none => exact absurd hts hne
        | some ts => rfl
      · rw [if_neg h2]; rfl
    · rw [if_neg h3]
      by_cases h4 : (strL "summary ").isPrefixOf line = true
      · rw [if_pos h4]
        by_cases h2 : st.currentCommitHash ≠ []
        · rw [if_pos h2]; rfl
        · rw [if_neg h2]; rfl
      · rw [if_neg h4]; rfl

theorem blameStepHeader_acc (nowISO : Str) (st : BlameParseState) (line : Str) :
    ∃ r, (blameStepHeader nowISO st line).acc = st.acc ++ [r]
      ∧ r.commitHash = (headerFields line).1 ∧ r.lineNumber = (headerFields line).2 := by
  unfold blameStepHeader
  exact ⟨_, rfl, rfl, rfl⟩

theorem runBlameLines_proj (toISO : Int → Str) (nowISO : Str) :
    ∀ (lines : List Str) (st st' : BlameParseState),
      runBlameLines toISO nowISO lines st = some st' →
      st'.acc.map (fun r => (r.commitHash, r.lineNumber))
        = st.acc.map (fun r => (r.commitHash, r.lineNumber))
            ++ (lines.filter matchBlameHeader).map headerFields := by
  intro lines
  induction lines with
  | nil =>
    intro st st' h
    cases h
    simp
  | cons l ls ih =>
    intro st st' h
    unfold runBlameLines at h
    cases hstep : blameStep toISO nowISO st l with
    | none => rw [hstep] at h; cases h
    | some st2 =>
      rw [hstep] at h
      have hrec := ih st2 st' h
      by_cases hm : matchBlameHeader l = true
      · have hval : blameStep toISO nowISO st l = some (blameStepHeader nowISO st l) := by
          unfold blameStep
          rw [if_pos hm]
        have hst2 : st2 = blameStepHeader nowISO st l := by
          rw [hval] at hstep
          exact (Option.some.inj hstep).symm
        obtain ⟨r, hacc, hch, hln⟩ := blameStepHeader_acc nowISO st l
        rw [hrec, hst2, hacc]
        simp [List.filter_cons, hm, hch, hln]
      · have hm' : matchBlameHeader l = false := Bool.eq_false_iff.mpr hm
        have hmeta : blameStepMeta toISO st l = some st2 := by
          unfold blameStep at hstep
          rw [if_neg hm] at hstep
          exact hstep
        rw [hrec, blameStepMeta_acc hmeta]
        simp [List.filter_cons, hm']

theorem runBlameLines_isSome (toISO : Int → Str) (nowISO : Str) :
    ∀ (lines : List Str), (∀ l ∈ lines, timeLineOk l) →
      ∀ st, (runBlameLines toISO nowISO lines st).isSome = true := by
  intro lines
  induction lines with
  | nil => intro _ st; rfl
  | cons l ls ih =>
    intro hok st
    unfold runBlameLines
    cases hstep : blameStep toISO nowISO st l with
    | none =>
      exfalso
      by_cases hm : matchBlameHeader l = true
      · unfold blameStep at hstep
        rw [if_pos hm] at hstep
        cases hstep
      · have hm' : matchBlameHeader l = false := Bool.eq_false_iff.mpr hm
        unfold blameStep at hstep
        rw [if_neg hm] at hstep
        have h2 := blameStepMeta_isSome toISO st hm' (hok l (by simp))
        rw [hstep] at h2
        simp at h2
    | some st2 =>
      exact ih (fun x hx => hok x (by simp [hx])) st2

theorem blameLe_trans :
    ∀ a b c, blameLe a b = true → blameLe b c = true → blameLe a c = true := by
  intro a b c h1 h2
  simp only [blameLe, decide_eq_true_eq] at h1 h2 ⊢
  omega

theorem blameLe_total : ∀ a b, blameLe a b = true ∨ blameLe b a = true := by
  intro a b
  simp only [blameLe, decide_eq_true_eq]
  omega

theorem pairwise_le_range' : ∀ (n s : Nat), List.Pairwise (fun a b : Nat => a ≤ b) (List.range' s n)
  | 0, s => by simp
  | n + 1, s => by
    rw [List.range']
    refine List.pairwise_cons.mpr ⟨?_, pairwise_le_range' n (s + 1)⟩
    intro b hb
    have := (List.mem_range'_1.mp hb).1
    omega

/-- C2 — Blame output shape: for every valid porcelain blame input, the
parser succeeds, the returned sequence has length equal to the number of
header lines, its `lineNumber` fields are exactly the contiguous
ascending run `1..N` (the result being sorted by `lineNumber` before
return regardless of input order), and every record has a non-empty
`commitHash`. -/
theorem blame_output_shape (toISO : Int → Str) (nowISO : Str) (output : Str)
    (hv : validPorcelain output) :
    parseBlameOutput toISO nowISO output ≠ none
    ∧ ((parseBlameOutput toISO nowISO output).getD []).length = (blameHeaderLines output).length
    ∧ ((parseBlameOutput toISO nowISO output).getD []).map (fun r => r.lineNumber)
        = List.range' 1 (blameHeaderLines output).length
    ∧ ∀ r ∈ (parseBlameOutput toISO nowISO output).getD [], r.commitHash ≠ [] := by
  obtain ⟨hok, hperm⟩ := hv
  have hsome := runBlameLines_isSome toISO nowISO (splitOnChar '\n' output) hok
    { acc := [], commitCache := [], currentCommitHash := [] }
  obtain ⟨st', hrun⟩ := Option.isSome_iff_exists.mp hsome
  have hout : parseBlameOutput toISO nowISO output = some (sortLe blameLe st'.acc) := by
    unfold parseBlameOutput
    rw [hrun]
  have hproj := runBlameLines_proj toISO nowISO (splitOnChar '\n' output)
    { acc := [], commitCache := [], currentCommitHash := [] } st' hrun
  simp only [List.map_nil, List.nil_append] at hproj
  have hmapno : st'.acc.map (fun r => r.lineNumber) = blameHeaderNos output := by
    have h2 := congrArg (List.map Prod.snd) hproj
    simpa only [List.map_map, Function.comp, blameHeaderNos, blameHeaderLines] using h2
  have hmaphash : st'.acc.map (fun r => r.commitHash)
      = (blameHeaderLines output).map (fun li => (headerFields li).1) := by
    have h2 := congrArg (List.map Prod.fst) hproj
    simpa only [List.map_map, Function.comp, blameHeaderLines] using h2
  have hpermacc : List.Perm (sortLe blameLe st'.acc) st'.acc := sortLe_perm blameLe st'.acc
  refine ⟨by rw [hout]; simp, ?_, ?_, ?_⟩
  · rw [hout]
    simp only [Option.getD_some]
    rw [hpermacc.length_eq]
    have h3 := congrArg List.length hmapno
    simpa only [List.length_map, blameHeaderNos, List.length_map] using h3
  · rw [hout]
    simp only [Option.getD_some]
    have hpw : List.Pairwise (fun a b => blameLe a b = true) (sortLe blameLe st'.acc) :=
      sortLe_pairwise blameLe_trans blameLe_total st'.acc
    have hsorted : List.Pairwise (fun a b : Nat => a ≤ b)
        ((sortLe blameLe st'.acc).map (fun r => r.lineNumber)) := by
      refine List.pairwise_map.mpr (hpw.imp ?_)
      intro a b hab
      simpa only [blameLe, decide_eq_true_eq] using hab
    have hpermno : List.Perm ((sortLe blameLe st'.acc).map (fun r => r.lineNumber))
        (List.range' 1 (blameHeaderLines output).length) := by
      have h3 := hpermacc.map (fun r => r.lineNumber)
      rw [hmapno] at h3
      exact h3.trans hperm
    exact List.eq_of_perm_of_sorted hpermno hsorted
      (pairwise_le_range' (blameHeaderLines output).length 1)
  · rw [hout]
    simp only [Option.getD_some]
    intro r hr
    have hracc : r ∈ st'.acc := hpermacc.mem_iff.mp hr
    have hmem : r.commitHash ∈ st'.acc.map (fun x => x.commitHash) :=
      List.mem_map_of_mem _ hracc
    rw [hmaphash] at hmem
    obtain ⟨li, hli, heq⟩ := List.mem_map.mp hmem
    have hli2 : li ∈ (splitOnChar '\n' output).filter matchBlameHeader := hli
    have hmat : matchBlameHeader li = true := List.of_mem_filter hli2
    have hlen := headerFields_hash_of_match hmat
    rw [heq] at hlen
    intro hnil
    rw [hnil] at hlen
    simp at hlen

/-- C2 witness: a concrete two-line blame input (headers out of
document order) on which the theorem's hypotheses hold. -/
theorem blame_output_shape_witness :
    validPorcelain (strL "aaaaaaaaaaaaaaaaaaaaaaaaaaaaaaaaaaaaaaaa 1 2\nbbbbbbbbbbbbbbbbbbbbbbbbbbbbbbbbbbbbbbbb 2 1")
    ∧ (parseBlameOutput (fun _ => []) [] (strL "aaaaaaaaaaaaaaaaaaaaaaaaaaaaaaaaaaaaaaaa 1 2\nbbbbbbbbbbbbbbbbbbbbbbbbbbbbbbbbbbbbbbbb 2 1") ≠ none
      ∧ ((parseBlameOutput (fun _ => []) [] (strL "aaaaaaaaaaaaaaaaaaaaaaaaaaaaaaaaaaaaaaaa 1 2\nbbbbbbbbbbbbbbbbbbbbbbbbbbbbbbbbbbbbbbbb 2 1")).getD []).length = (blameHeaderLines (strL "aaaaaaaaaaaaaaaaaaaaaaaaaaaaaaaaaaaaaaaa 1 2\nbbbbbbbbbbbbbbbbbbbbbbbbbbbbbbbbbbbbbbbb 2 1")).length
      ∧ ((parseBlameOutput (fun _ => []) [] (strL "aaaaaaaaaaaaaaaaaaaaaaaaaaaaaaaaaaaaaaaa 1 2\nbbbbbbbbbbbbbbbbbbbbbbbbbbbbbbbbbbbbbbbb 2 1")).getD []).map (fun r => r.lineNumber)
          = List.range' 1 (blameHeaderLines (strL "aaaaaaaaaaaaaaaaaaaaaaaaaaaaaaaaaaaaaaaa 1 2\nbbbbbbbbbbbbbbbbbbbbbbbbbbbbbbbbbbbbbbbb 2 1")).length
      ∧ ∀ r ∈ (parseBlameOutput (fun _ => []) [] (strL "aaaaaaaaaaaaaaaaaaaaaaaaaaaaaaaaaaaaaaaa 1 2\nbbbbbbbbbbbbbbbbbbbbbbbbbbbbbbbbbbbbbbbb 2 1")).getD [], r.commitHash ≠ []) :=
  ⟨by decide, blame_output_shape (fun _ => []) []
    (strL "aaaaaaaaaaaaaaaaaaaaaaaaaaaaaaaaaaaaaaaa 1 2\nbbbbbbbbbbbbbbbbbbbbbbbbbbbbbbbbbbbbbbbb 2 1") (by decide)⟩

/-! ### Claim C1: metadata reuse across repeated headers -/

theorem matchBlameHeader_false2 {c1 c2 : Char} (rest : Str)
    (h : isHexLower c1 = false ∨ isHexLower c2 = false) :
    matchBlameHeader (c1 :: c2 :: rest) = false := by
  have h1 : (c1 :: c2 :: rest).take 40 = c1 :: c2 :: rest.take 38 := rfl
  unfold matchBlameHeader
  rw [h1]
  rcases h with h | h <;> simp [List.all_cons, h]

theorem isPrefixOf_append_self (p r : Str) : p.isPrefixOf (p ++ r) = true :=
  List.isPrefixOf_iff_prefix.mpr (List.prefix_append p r)

theorem drop_append_len (p r : Str) (n : Nat) (h : p.length = n) : (p ++ r).drop n = r := by
  rw [← h, List.drop_left]

theorem author_np_time (t : Str) :
    (strL "author ").isPrefixOf (strL "author-time " ++ t) = false := rfl

theorem author_np_sum (s : Str) :
    (strL "author ").isPrefixOf (strL "summary " ++ s) = false := rfl

theorem time_np_sum (s : Str) :
    (strL "author-time ").isPrefixOf (strL "summary " ++ s) = false := rfl

/-- C1 (amended) — Metadata reuse: when a commit emits its full metadata
(author, author-time, summary) after its first header line and a later
header line for the same commit carries no inline metadata, the record
emitted for the later header reuses the cached author, date and summary
(stated for a non-empty author name and a non-empty ISO date string,
since the source runs each cached field through JS `||`, under which an
empty string falls back to the placeholder again), while the record
emitted for the first header carries the placeholder values (author
`Unknown`, parse-time date, empty summary): each record is pushed when
its header line is read, before the metadata lines that follow it are
processed, so the two records do not agree. -/
theorem blame_metadata_reuse (toISO : Int → Str) (nowISO : Str) (h a t s : Str)
    (hh : h.length = 40) (hhex : h.all isHexLower = true)
    (ht : t ≠ []) (htd : ∀ c ∈ t, isDigitCh c = true)
    (hna : '\n' ∉ a) (hns : '\n' ∉ s)
    (ha : a ≠ []) (hiso : toISO ((natFromDigits t : Int) * 1000) ≠ []) :
    parseBlameOutput toISO nowISO
      ((h ++ strL " 1 1 1") ++ '\n' ::
       ((strL "author " ++ a) ++ '\n' ::
        ((strL "author-time " ++ t) ++ '\n' ::
         ((strL "summary " ++ s) ++ '\n' ::
          (strL "\tx" ++ '\n' ::
           (h ++ strL " 2 2"))))))
      = some [⟨1, h, strL "Unknown", nowISO, []⟩,
              ⟨2, h, a, toISO ((natFromDigits t : Int) * 1000), s⟩] := by
  have hne : h ≠ [] := by
    intro e
    rw [e] at hh
    simp at hh
  have hs1 : ∀ c ∈ h ++ strL " 1 1 1", c ≠ '\n' := by
    intro c hc
    rcases List.mem_append.mp hc with hc | hc
    · exact hex_ne_newline (List.all_eq_true.mp hhex c hc)
    · intro e; subst e; revert hc; decide
  have hs2 : ∀ c ∈ strL "author " ++ a, c ≠ '\n' := by
    intro c hc
    rcases List.mem_append.mp hc with hc | hc
    · intro e; subst e; revert hc; decide
    · intro e; subst e; exact hna hc
  have hs3 : ∀ c ∈ strL "author-time " ++ t, c ≠ '\n' := by
    intro c hc
    rcases List.mem_append.mp hc with hc | hc
    · intro e; subst e; revert hc; decide
    · intro e; subst e; exact absurd (htd _ hc) (by decide)
  have hs4 : ∀ c ∈ strL "summary " ++ s, c ≠ '\n' := by
    intro c hc
    rcases List.mem_append.mp hc with hc | hc
    · intro e; subst e; revert hc; decide
    · intro e; subst e; exact hns hc
  have hs6 : ∀ c ∈ h ++ strL " 2 2", c ≠ '\n' := by
    intro c hc
    rcases List.mem_append.mp hc with hc | hc
    · exact hex_ne_newline (List.all_eq_true.mp hhex c hc)
    · intro e; subst e; revert hc; decide
  have hsplit : splitOnChar '\n'
      ((h ++ strL " 1 1 1") ++ '\n' ::
       ((strL "author " ++ a) ++ '\n' ::
        ((strL "author-time " ++ t) ++ '\n' ::
         ((strL "summary " ++ s) ++ '\n' ::
          (strL "\tx" ++ '\n' ::
           (h ++ strL " 2 2"))))))
      = [h ++ strL " 1 1 1", strL "author " ++ a, strL "author-time " ++ t,
         strL "summary " ++ s, strL "\tx", h ++ strL " 2 2"] := by
    rw [splitOnChar_append_cons hs1, splitOnChar_append_cons hs2,
        splitOnChar_append_cons hs3, splitOnChar_append_cons hs4,
        splitOnChar_append_cons (by decide), splitOnChar_no_sep hs6]
  have hm1 : matchBlameHeader (h ++ strL " 1 1 1") = true := by
    have e : matchBlameHeader (h ++ ' ' :: strL "1 1 1")
        = matchHeaderTail (' ' :: strL "1 1 1") := matchBlameHeader_split hh hhex
    exact e.trans (by decide)
  have hf1 : headerFields (h ++ strL " 1 1 1") = (h, 1) := by
    have e : headerFields (h ++ ' ' :: strL "1 1 1")
        = (h, natFromDigits (((splitOnChar ' ' (strL "1 1 1")).getD 1 []).takeWhile isDigitCh)) :=
      headerFields_split hh hhex
    exact e.trans rfl
  have hm6 : matchBlameHeader (h ++ strL " 2 2") = true := by
    have e : matchBlameHeader (h ++ ' ' :: strL "2 2")
        = matchHeaderTail (' ' :: strL "2 2") := matchBlameHeader_split hh hhex
    exact e.trans (by decide)
  have hf6 : headerFields (h ++ strL " 2 2") = (h, 2) := by
    have e : headerFields (h ++ ' ' :: strL "2 2")
        = (h, natFromDigits (((splitOnChar ' ' (strL "2 2")).getD 1 []).takeWhile isDigitCh)) :=
      headerFields_split hh hhex
    exact e.trans rfl
  have hm2 : matchBlameHeader (strL "author " ++ a) = false :=
    matchBlameHeader_false2 (strL "thor " ++ a) (Or.inr (by decide))
  have hm3 : matchBlameHeader (strL "author-time " ++ t) = false :=
    matchBlameHeader_false2 (strL "thor-time " ++ t) (Or.inr (by decide))
  have hm4 : matchBlameHeader (strL "summary " ++ s) = false :=
    matchBlameHeader_false2 (strL "mmary " ++ s) (Or.inl (by decide))
  have hst1 : blameStep toISO nowISO
      { acc := [], commitCache := [], currentCommitHash := [] } (h ++ strL " 1 1 1")
      = some { acc := [⟨1, h, strL "Unknown", nowISO, []⟩],
               commitCache := [(h, { commitHash := h })],
               currentCommitHash := h } := by
    unfold blameStep
    rw [if_pos hm1]
    simp only [blameStepHeader, hf1]
    rfl
  have hst2 : blameStep toISO nowISO
      { acc := [⟨1, h, strL "Unknown", nowISO, []⟩],
        commitCache := [(h, { commitHash := h })], currentCommitHash := h }
      (strL "author " ++ a)
      = some { acc := [⟨1, h, strL "Unknown", nowISO, []⟩],
               commitCache := [(h, { commitHash := h, author := some a })],
               currentCommitHash := h } := by
    unfold blameStep
    rw [if_neg (by simp [hm2])]
    unfold blameStepMeta
    rw [if_pos (isPrefixOf_append_self (strL "author ") a)]
    rw [if_pos (show (h : Str) ≠ [] from hne)]
    rw [drop_append_len (strL "author ") a 7 rfl]
    simp [metaUpdate]
  have hst3 : blameStep toISO nowISO
      ⟨[⟨1, h, strL "Unknown", nowISO, []⟩], [(h, ⟨h, some a, none, none⟩)], h⟩
      (strL "author-time " ++ t)
      = some ⟨[⟨1, h, strL "Unknown", nowISO, []⟩],
          [(h, ⟨h, some a, some (toISO ((natFromDigits t : Int) * 1000)), none⟩)], h⟩ := by
    unfold blameStep
    rw [if_neg (by simp [hm3])]
    unfold blameStepMeta
    rw [if_neg (by simp [author_np_time])]
    rw [if_pos (isPrefixOf_append_self (strL "author-time ") t)]
    rw [if_pos (show (h : Str) ≠ [] from hne)]
    rw [drop_append_len (strL "author-time ") t 12 rfl]
    rw [jsParseInt_digits ht htd]
    simp [metaUpdate]
  have hst4 : blameStep toISO nowISO
      ⟨[⟨1, h, strL "Unknown", nowISO, []⟩],
        [(h, ⟨h, some a, some (toISO ((natFromDigits t : Int) * 1000)), none⟩)], h⟩
      (strL "summary " ++ s)
      = some ⟨[⟨1, h, strL "Unknown", nowISO, []⟩],
          [(h, ⟨h, some a, some (toISO ((natFromDigits t : Int) * 1000)), some s⟩)], h⟩ := by
    unfold blameStep
    rw [if_neg (by simp [hm4])]
    unfold blameStepMeta
    rw [if_neg (by simp [author_np_sum])]
    rw [if_neg (by simp [time_np_sum])]
    rw [if_pos (isPrefixOf_append_self (strL "summary ") s)]
    rw [if_pos (show (h : Str) ≠ [] from hne)]
    rw [drop_append_len (strL "summary ") s 8 rfl]
    simp [metaUpdate]
  have hst5 : blameStep toISO nowISO
      ⟨[⟨1, h, strL "Unknown", nowISO, []⟩],
        [(h, ⟨h, some a, some (toISO ((natFromDigits t : Int) * 1000)), some s⟩)], h⟩
      (strL "\tx")
      = some ⟨[⟨1, h, strL "Unknown", nowISO, []⟩],
          [(h, ⟨h, some a, some (toISO ((natFromDigits t : Int) * 1000)), some s⟩)], h⟩ := by
    unfold blameStep
    rw [if_neg (by decide)]
    unfold blameStepMeta
    rw [if_neg (by decide), if_neg (by decide), if_neg (by decide)]
  have hst6 : blameStep toISO nowISO
      ⟨[⟨1, h, strL "Unknown", nowISO, []⟩],
        [(h, ⟨h, some a, some (toISO ((natFromDigits t : Int) * 1000)), some s⟩)], h⟩
      (h ++ strL " 2 2")
      = some ⟨[⟨1, h, strL "Unknown", nowISO, []⟩,
            ⟨2, h, a, toISO ((natFromDigits t : Int) * 1000), s⟩],
          [(h, ⟨h, some a, some (toISO ((natFromDigits t : Int) * 1000)), some s⟩)], h⟩ := by
    unfold blameStep
    rw [if_pos hm6]
    simp only [blameStepHeader, hf6]
    simp [metaLookup, List.find?, jsOrStr_some_ne _ ha, jsOrStr_some_ne _ hiso,
      jsOrStr_some_nilD]
  unfold parseBlameOutput
  rw [hsplit]
  simp only [runBlameLines, hst1, hst2, hst3, hst4, hst5, hst6]
  simp [sortLe, insertLe, blameLe]

/-- C1 witness: the amended metadata-reuse theorem applied at a concrete
porcelain input (commit `aa…a`, author `Alice`, time `1000`, summary
`fix`). -/
theorem blame_metadata_reuse_witness :
    parseBlameOutput (fun _ => strL "D") (strL "NOW")
      ((strL "aaaaaaaaaaaaaaaaaaaaaaaaaaaaaaaaaaaaaaaa" ++ strL " 1 1 1") ++ '\n' ::
       ((strL "author " ++ strL "Alice") ++ '\n' ::
        ((strL "author-time " ++ strL "1000") ++ '\n' ::
         ((strL "summary " ++ strL "fix") ++ '\n' ::
          (strL "\tx" ++ '\n' ::
           (strL "aaaaaaaaaaaaaaaaaaaaaaaaaaaaaaaaaaaaaaaa" ++ strL " 2 2"))))))
      = some [⟨1, strL "aaaaaaaaaaaaaaaaaaaaaaaaaaaaaaaaaaaaaaaa", strL "Unknown", strL "NOW", []⟩,
              ⟨2, strL "aaaaaaaaaaaaaaaaaaaaaaaaaaaaaaaaaaaaaaaa", strL "Alice",
                (fun _ => strL "D") ((natFromDigits (strL "1000") : Int) * 1000), strL "fix"⟩] :=
  blame_metadata_reuse (fun _ => strL "D") (strL "NOW")
    (strL "aaaaaaaaaaaaaaaaaaaaaaaaaaaaaaaaaaaaaaaa") (strL "Alice") (strL "1000") (strL "fix")
    (by decide) (by decide) (by decide) (by decide) (by decide) (by decide)
    (by decide) (by decide)

/-- C1 counterexample — the claim "the two BlameLine records emitted for
`C` report identical author, date, and summary" is false: on this input
the first record for the commit carries the placeholders
(`Unknown` / parse-time date / empty summary) while the second carries
the cached metadata, because each record is pushed when its header is
read, before the metadata lines that follow it. -/
theorem blame_metadata_reuse_counterexample :
    parseBlameOutput (fun _ => strL "D") (strL "NOW")
      (strL "aaaaaaaaaaaaaaaaaaaaaaaaaaaaaaaaaaaaaaaa 1 1 1\nauthor Alice\nauthor-time 1000\nsummary fix\n\tcode\naaaaaaaaaaaaaaaaaaaaaaaaaaaaaaaaaaaaaaaa 2 2\n\tmore")
      = some [⟨1, strL "aaaaaaaaaaaaaaaaaaaaaaaaaaaaaaaaaaaaaaaa", strL "Unknown", strL "NOW", []⟩,
              ⟨2, strL "aaaaaaaaaaaaaaaaaaaaaaaaaaaaaaaaaaaaaaaa", strL "Alice", strL "D", strL "fix"⟩]
    ∧ strL "Unknown" ≠ strL "Alice" ∧ strL "NOW" ≠ strL "D" ∧ ([] : Str) ≠ strL "fix" := by
  constructor
  · rfl
  · refine ⟨by decide, by decide, by decide⟩

/-! ## Name-status parsing (GitService.getChangedFiles) -/

/-- Change status of a file in a commit (`ChangedFile.status`). -/
inductive FileStatus
  | added
  | modified
  | deleted
  | unchanged
deriving DecidableEq, Repr

/-- One entry of a parsed name-status summary. -/
structure ChangedFile where
  path : Str
  status : FileStatus
deriving DecidableEq, Repr

/-- Character class of the regex `[AMDRT]`. -/
def isStatusLetter (c : Char) : Bool :=
  (c = 'A') || (c = 'M') || (c = 'D') || (c = 'R') || (c = 'T')

/-- Character class of the regex `.` (without the `s` flag): any
character except a line terminator — `\n`, `\r`, U+2028 or U+2029. -/
def isDotCh (c : Char) : Bool :=
  !((c == '\n') || (c == '\r') || (c == '\u2028') || (c == '\u2029'))

/-- Model of `line.match(/^([AMDRT]\d*)\s+(.+)$/)`, returning the two
capture groups (status code, path) on success.  The greedy `\s+` takes
the maximal whitespace run; `(.+)$` must then cover the whole remainder
with characters `.` accepts (no line terminator — if any remains, no
amount of `\s+` backtracking removes it, since the remainder stays a
suffix of what `(.+)` must match).  When nothing is left for `(.+)$`,
`\s+` backtracks and gives exactly its last whitespace character back
to the path, which succeeds only when `.` accepts that character. -/
def matchNameStatus : Str → Option (Str × Str)
  | [] => none
  | c :: rest =>
    if isStatusLetter c then
      let digits := rest.takeWhile isDigitCh
      let afterCode := rest.drop digits.length
      let ws := afterCode.takeWhile isWsCh
      if ws = [] then none
      else
        let afterWs := afterCode.drop ws.length
        if afterWs ≠ [] then
          if afterWs.all isDotCh then some (c :: digits, afterWs)
          else none
        else
          match ws.getLast? with
          | some w => if 2 ≤ ws.length ∧ isDotCh w = true then some (c :: digits, [w]) else none
          | none => none
    else none

/-- Mapping of the status code's first character to `FileStatus`, via
the `startsWith` chain of the source. -/
def statusOf (code : Str) : FileStatus :=
  if (strL "A").isPrefixOf code then .added
  else if (strL "M").isPrefixOf code then .modified
  else if (strL "D").isPrefixOf code then .deleted
  else if (strL "R").isPrefixOf code then .modified
  else if (strL "T").isPrefixOf code then .modified
  else .unchanged

/-- The parsing loop of `getChangedFiles`: split the raw name-status
text on newlines, keep the lines whose trim is non-empty (JS truthiness
of `line.trim()`), and collect one `ChangedFile` per matched line. -/
def getChangedFilesParse (raw : Str) : List ChangedFile :=
  let lines := (splitOnChar '\n' raw).filter (fun l => !((trimWs l) == []))
  lines.filterMap (fun line =>
    (matchNameStatus line).map (fun pr => (⟨pr.2, statusOf pr.1⟩ : ChangedFile)))

/-! ## HistoryCache (CacheManager) -/

/-- Payloads stored in the cache (the heterogeneous `any` of the
source, restricted to the value shapes the service actually stores). -/
inductive Payload
  | content (s : Str)
  | files (l : List ChangedFile)
  | blame (l : List BlameLineInfo)
deriving DecidableEq, Repr

/-- One cache entry (`CacheEntry<T>` of the source). -/
structure CacheEntry where
  data : Payload
  timestamp : Nat
  filePath : Str
  commitHash : Option Str
deriving DecidableEq, Repr

/-- The cache `Map`, as an association list in insertion order. -/
abbrev Cache := List (Str × CacheEntry)

/-- JS truthiness of a cached payload: an empty string is falsy, arrays
are always truthy. -/
def jsTruthy : Payload → Bool
  | .content s => !(s == [])
  | _ => true

/-- JS truthiness of an optional string argument (`undefined` and the
empty string are falsy). -/
def jsTruthyStr : Option Str → Bool
  | some s => !(s == [])
  | none => false

/-- Model of `CacheManager.get`: the stored payload, or `none` when the
key has no entry. -/
def cacheGet (c : Cache) (k : Str) : Option Payload :=
  (c.find? (fun p => p.1 == k)).map (fun p => p.2.data)

/-- Model of `CacheManager.set`: `Map.set` overwrites an existing key in
place and appends a new key at the end. -/
def cacheSet (c : Cache) (k : Str) (d : Payload) (ts : Nat) (fp : Str) (ch : Option Str) : Cache :=
  if c.any (fun p => p.1 == k) then
    c.map (fun p => if p.1 == k then (k, ⟨d, ts, fp, ch⟩) else p)
  else c ++ [(k, ⟨d, ts, fp, ch⟩)]

/-- Model of `CacheManager.invalidate`: with a truthy file path, delete
exactly the entries tagged with that path; with `undefined` (or the
falsy empty string), clear everything. -/
def cacheInvalidate (fp : Option Str) (c : Cache) : Cache :=
  if jsTruthyStr fp then
    c.filter (fun p => !(p.2.filePath == fp.getD []))
  else []

/-! ## CommitHistoryService (GitService) -/

/-- External collaborators of the service, passed in explicitly: the
node `path` library (`normalize`, `join`, `sep`), the clock, and the
git subprocess wrapper (`show --name-status` and `show <commit>:<path>`,
each returning raw text or failing). -/
structure GitEnv where
  normalize : Str → Str
  pathJoin : Str → Str → Str
  sep : Char
  nowMs : Nat
  showNameStatus : Str → Str → Except Unit Str
  showBlob : Str → Str → Except Unit Str

/-- Mutable state of a `GitService` instance. `submoduleRepos` maps a
submodule path to the root of its repository, in detection order. -/
structure GitServiceState where
  workspaceRoot : Str
  isGitRepo : Bool
  submoduleRepos : List (Str × Str)
  cache : Cache

/-- Model of `GitService.getRepoForFile`: first submodule whose
normalized full path prefixes the normalized file path, else the main
repository when the workspace is one, else `none`. -/
def getRepoForFile (env : GitEnv) (st : GitServiceState) (filePath : Str) : Option Str :=
  let normalizedFile := env.normalize filePath
  match st.submoduleRepos.find? (fun pr =>
      (env.normalize (env.pathJoin st.workspaceRoot pr.1)).isPrefixOf normalizedFile) with
  | some pr => some pr.2
  | none => if st.isGitRepo then some st.workspaceRoot else none

/-- Model of `GitService.getRelativePathForRepo`: strip the repo-root
prefix and a leading separator and forward-slash the result; a path not
under the root is returned with only its backslashes replaced. -/
def getRelativePathForRepo (env : GitEnv) (filePath repoRoot : Str) : Str :=
  let normalizedFile := env.normalize filePath
  let normalizedRepo := env.normalize repoRoot
  if normalizedRepo.isPrefixOf normalizedFile then
    let r1 := normalizedFile.drop normalizedRepo.length
    let r2 := if r1.head? = some env.sep then r1.drop 1 else r1
    replaceBackslashes r2
  else replaceBackslashes filePath

/-- Cache key of `getChangedFiles` — it mentions only the commit hash. -/
def filesKey (ch : Str) : Str := strL "files:" ++ ch

/-- Cache key of `getFileContent`. -/
def contentKey (ch fp : Str) : Str := strL "content:" ++ ch ++ ':' :: fp

/-- Reading a files payload back out of the cache.  A differently shaped
payload cannot occur under these keys because every key is prefixed
with its operation name; the TS source casts unconditionally. -/
def extractFiles : Payload → List ChangedFile
  | .files l => l
  | _ => []

/-- Reading a content payload back out of the cache (same remark as for
`extractFiles`). -/
def extractContent : Payload → Str
  | .content s => s
  | _ => []

/-- Cache-miss path of `getChangedFiles`: choose the repository (the
submodule owning `filePath` when one is given and truthy, the main git
handle otherwise), run `show --name-status`, parse, and cache the list
under the commit-only key with an empty `filePath` tag.  The returned
boolean records that git was consulted. -/
def getChangedFilesMiss (env : GitEnv) (st : GitServiceState) (commitHash : Str)
    (filePath : Option Str) : List ChangedFile × GitServiceState × Bool :=
  let repoRoot? : Option Str :=
    if jsTruthyStr filePath then getRepoForFile env st (filePath.getD [])
    else some st.workspaceRoot
  match repoRoot? with
  | none => ([], st, false)
  | some root =>
    match env.showNameStatus root commitHash with
    | .error _ => ([], st, true)
    | .ok raw =>
      let files := getChangedFilesParse raw
      let cache2 := cacheSet st.cache (filesKey commitHash) (.files files) env.nowMs [] (some commitHash)
      (files, { st with cache := cache2 }, true)

/-- Model of `GitService.getChangedFiles`: a truthy cached payload is
returned without touching git. -/
def getChangedFiles (env : GitEnv) (st : GitServiceState) (commitHash : Str)
    (filePath : Option Str) : List ChangedFile × GitServiceState × Bool :=
  match cacheGet st.cache (filesKey commitHash) with
  | some payload =>
    if jsTruthy payload then (extractFiles payload, st, false)
    else getChangedFilesMiss env st commitHash filePath
  | none => getChangedFilesMiss env st commitHash filePath

/-- Cache-miss path of `getFileContent`: resolve the owning repository,
run `show <commit>:<relative path>`, cache the blob (tagged with the
file path) and return it; failures are converted to the empty string. -/
def getFileContentMiss (env : GitEnv) (st : GitServiceState) (commitHash filePath : Str) :
    Str × GitServiceState × Bool :=
  match getRepoForFile env st filePath with
  | none => ([], st, false)
  | some root =>
    let rel := getRelativePathForRepo env filePath root
    match env.showBlob root (commitHash ++ ':' :: rel) with
    | .error _ => ([], st, true)
    | .ok content =>
      let cache2 := cacheSet st.cache (contentKey commitHash filePath) (.content content)
        env.nowMs filePath (some commitHash)
      (content, { st with cache := cache2 }, true)

/-- Model of `GitService.getFileContent`: the cached payload is served
only when truthy — a cached empty string falls through to a fresh
query. -/
def getFileContent (env : GitEnv) (st : GitServiceState) (commitHash filePath : Str) :
    Str × GitServiceState × Bool :=
  match cacheGet st.cache (contentKey commitHash filePath) with
  | some payload =>
    if jsTruthy payload then (extractContent payload, st, false)
    else getFileContentMiss env st commitHash filePath
  | none => getFileContentMiss env st commitHash filePath

/-! ## FileTreeBuilder (GitHistoryProvider.buildFileTree and
expandFoldersToCurrentFile) -/

/-- Nodes of the commit file tree: the `FolderItem` / `FileItem`
dichotomy, with `expanded` modelling
`collapsibleState == TreeItemCollapsibleState.Expanded`. -/
inductive TreeItem
  | folder (label : Str) (folderPath : Str) (expanded : Bool)
  | file (label : Str) (commitHash : Str) (filePath : Str) (isCurrentFile : Bool) (status : FileStatus)
deriving DecidableEq, Repr

/-- The tree `Map` from folder path to child items, in insertion order. -/
abbrev FileTree := List (Str × List TreeItem)

/-- Model of `tree.get(k) || []`. -/
def treeGet (t : FileTree) (k : Str) : List TreeItem :=
  ((t.find? (fun p => p.1 == k)).map (fun p => p.2)).getD []

/-- Model of `tree.set(k, v)` (overwrite in place or append). -/
def treeSet (t : FileTree) (k : Str) (v : List TreeItem) : FileTree :=
  if t.any (fun p => p.1 == k) then t.map (fun p => if p.1 == k then (k, v) else p)
  else t ++ [(k, v)]

def isFolderItem : TreeItem → Bool
  | .folder _ _ _ => true
  | _ => false

def itemLabel : TreeItem → Str
  | .folder lab _ _ => lab
  | .file lab _ _ _ _ => lab

/-- Generalized split used for `path.split(/[\\/]/)`. -/
def splitOnPred (isSep : Char → Bool) : Str → List Str
  | [] => [[]]
  | c :: rest =>
    if isSep c then [] :: splitOnPred isSep rest
    else
      match splitOnPred isSep rest with
      | h :: t => (c :: h) :: t
      | [] => [[c]]

def isPathSep (c : Char) : Bool := (c = '/') || (c = '\\')

/-- Model of `path.split(/[\\/]/)`. -/
def splitPathSegs (p : Str) : List Str := splitOnPred isPathSep p

/-- Model of node's `path.basename` in its POSIX form: strip trailing
slashes, then keep what follows the last slash. -/
def basenamePosix (p : Str) : Str :=
  let q := (p.reverse.dropWhile (fun c => c = '/')).reverse
  (q.reverse.takeWhile (fun c => c ≠ '/')).reverse

/-- The folder-materializing loop of `buildFileTree`: walk every path
segment but the last, lazily creating a collapsed-or-expanded folder
(per `allFoldersExpanded`) for each missing ancestor and attaching it to
its parent's child list.  The `Str` result is the file's parent path,
the first list is the set of folder paths already materialized
(`folderMap.has`). -/
def insertFolders (afe : Bool) : List Str → Str → List Str → FileTree → (Str × List Str × FileTree)
  | [], currentPath, folderSet, tree => (currentPath, folderSet, tree)
  | [_], currentPath, folderSet, tree => (currentPath, folderSet, tree)
  | name :: rest, currentPath, folderSet, tree =>
    let parentPath := currentPath
    let currentPath2 := if currentPath = [] then name else currentPath ++ '/' :: name
    let next :=
      if folderSet.any (fun q => q == currentPath2) then (folderSet, tree)
      else
        let folder := TreeItem.folder name currentPath2 afe
        (currentPath2 :: folderSet,
         treeSet tree parentPath (treeGet tree parentPath ++ [folder]))
    insertFolders afe rest currentPath2 next.1 next.2

/-- Insertion of one changed file: materialize its ancestor folders,
compute the target flag (`===`, `endsWith`, or basename `endsWith`
against the current file path), and append the `FileItem` to its parent
folder's child list. -/
def insertOneFile (cfp : Option Str) (afe : Bool) (commitHash : Str)
    (acc : List Str × FileTree) (fileInfo : ChangedFile) : List Str × FileTree :=
  let parts := splitPathSegs fileInfo.path
  let step := insertFolders afe parts [] acc.1 acc.2
  let parentPath := step.1
  let fileName := parts.getLastD []
  let isCurrentFile :=
    (match cfp with | some c => c == fileInfo.path | none => false)
    || (match cfp with | some c => fileInfo.path.isSuffixOf c | none => false)
    || (basenamePosix (cfp.getD [])).isSuffixOf fileInfo.path
  let file := TreeItem.file fileName commitHash fileInfo.path isCurrentFile fileInfo.status
  (step.2.1, treeSet step.2.2 parentPath (treeGet step.2.2 parentPath ++ [file]))

/-- The final per-folder comparator: folders sort before files, then
alphabetically by display name (see the file header for the
`localeCompare` model). -/
def nodeLe (a b : TreeItem) : Bool :=
  if isFolderItem a && !(isFolderItem b) then true
  else if !(isFolderItem a) && isFolderItem b then false
  else strLe (itemLabel a) (itemLabel b)

/-- Comparator of the initial `files.sort((a, b) => a.path.localeCompare(b.path))`. -/
def pathLe (a b : ChangedFile) : Bool := strLe a.path b.path

/-- Model of `GitHistoryProvider.buildFileTree`.  The first component is
the final state of the caller's `files` array, which the source sorts in
place before inserting. -/
def buildFileTree (cfp : Option Str) (afe : Bool) (commitHash : Str)
    (files : List ChangedFile) : List ChangedFile × FileTree :=
  let sorted := sortLe pathLe files
  let built := sorted.foldl (insertOneFile cfp afe commitHash) ([], ([] : FileTree))
  (sorted, built.2.map (fun pr => (pr.1, sortLe nodeLe pr.2)))

/-- Replacement applied by one pass of the expansion loop: a folder
whose path is `currentFolderPath` becomes a freshly constructed expanded
folder; everything else is untouched. -/
def expandItem (folderName currentFolderPath : Str) : TreeItem → TreeItem
  | TreeItem.folder lab q e =>
    if q == currentFolderPath then TreeItem.folder folderName currentFolderPath true
    else TreeItem.folder lab q e
  | it => it

/-- One pass of the expansion loop over the whole tree. -/
def expandStep (folderName currentFolderPath : Str) (tree : FileTree) : FileTree :=
  tree.map (fun pr => (pr.1, pr.2.map (expandItem folderName currentFolderPath)))

/-- The ancestor-expanding loop of `expandFoldersToCurrentFile`
(`for i in 0 .. parts.length - 2`). -/
def expandLoop : List Str → Str → FileTree → FileTree
  | [], _, t => t
  | [_], _, t => t
  | name :: rest, acc, t =>
    let cur := if acc = [] then name else acc ++ '/' :: name
    expandLoop rest cur (expandStep name cur t)

/-- The exact-match search of `expandFoldersToCurrentFile`: is there a
`FileItem` whose `filePath` equals the resolved relative path? -/
def treeHasFileWithPath (tree : FileTree) (rel : Str) : Bool :=
  tree.any (fun pr => pr.2.any (fun it =>
    match it with
    | .file _ _ q _ _ => q == rel
    | _ => false))

/-- The resolution of the current file to a repo-relative path at the
start of `expandFoldersToCurrentFile`. -/
def resolveRelative (env : GitEnv) (st : GitServiceState) (cfp : Str) : Str :=
  match getRepoForFile env st cfp with
  | some root => getRelativePathForRepo env cfp root
  | none => cfp

/-- Model of `GitHistoryProvider.expandFoldersToCurrentFile`: nothing
happens without a truthy current file or without an exact-path match;
otherwise every ancestor folder of the matched path is replaced by an
expanded copy. -/
def expandFoldersToCurrentFile (env : GitEnv) (st : GitServiceState) (cfp : Option Str)
    (tree : FileTree) : FileTree :=
  if jsTruthyStr cfp then
    let rel := resolveRelative env st (cfp.getD [])
    if treeHasFileWithPath tree rel then expandLoop (splitPathSegs rel) [] tree
    else tree
  else tree

/-- The folder paths visited by the expansion loop, i.e. the proper
ancestor chain of the split path. -/
def ancestorPaths : List Str → Str → List Str
  | [], _ => []
  | [_], _ => []
  | name :: rest, acc =>
    let cur := if acc = [] then name else acc ++ '/' :: name
    cur :: ancestorPaths rest cur

/-- The `(folderPath, expanded)` pair of a folder item. -/
def folderEntry : TreeItem → Option (Str × Bool)
  | TreeItem.folder _ q e => some (q, e)
  | _ => none

/-- The `(folderPath, expanded)` pairs of all folders of a tree. -/
def folderStates (t : FileTree) : List (Str × Bool) :=
  (t.map (fun pr => pr.2.filterMap folderEntry)).flatten

/-! ### Claim C6: name-status parsing -/

/-- Environment instantiating the external collaborators on concrete
inputs: identity `normalize` (which agrees with node's `path.normalize`
on the already-normal paths used in the concrete statements below) and
the POSIX join and separator. -/
def envPosix : GitEnv :=
  { normalize := fun s => s
    pathJoin := fun a b => a ++ '/' :: b
    sep := '/'
    nowMs := 0
    showNameStatus := fun _ _ => .error ()
    showBlob := fun _ _ => .error () }

/-- Environment whose name-status query returns the end-to-end scenario
output of the specification. -/
def envScenario : GitEnv :=
  { envPosix with showNameStatus := fun _ _ => .ok (strL "M\tsrc/a.ts\nA\tsrc/b.ts\nD\told.ts") }

theorem mem_keys_unique {c : Cache} {k : Str} {e1 e2 : CacheEntry}
    (hw : (c.map (fun pr => pr.1)).Nodup) (h1 : (k, e1) ∈ c) (h2 : (k, e2) ∈ c) : e1 = e2 := by
  induction c with
  | nil => cases h1
  | cons a rest ih =>
    rw [List.map_cons] at hw
    obtain ⟨hna, hnr⟩ := List.nodup_cons.mp hw
    rcases List.mem_cons.mp h1 with rfl | h1r
    · rcases List.mem_cons.mp h2 with he | h2r
      · exact ((Prod.mk.injEq _ _ _ _).mp he.symm).2
      · exact absurd (List.mem_map_of_mem (fun pr => pr.1) h2r) hna
    · rcases List.mem_cons.mp h2 with rfl | h2r
      · exact absurd (List.mem_map_of_mem (fun pr => pr.1) h1r) hna
      · exact ih hnr h1r h2r

theorem find_filter_of_mem {c : Cache} {k : Str} {e : CacheEntry} {q : Str × CacheEntry → Bool}
    (hw : (c.map (fun pr => pr.1)).Nodup) (hm : (k, e) ∈ c) (hq : q (k, e) = true) :
    (c.filter q).find? (fun pr => pr.1 == k) = some (k, e) := by
  induction c with
  | nil => cases hm
  | cons a rest ih =>
    rw [List.map_cons] at hw
    obtain ⟨hna, hnr⟩ := List.nodup_cons.mp hw
    rcases List.mem_cons.mp hm with rfl | hm2
    · rw [List.filter_cons, if_pos hq]
      exact List.find?_cons_of_pos _ (by simp)
    · have hne : ((fun pr => pr.1 == k) a) = false := by
        have hk : k ∈ rest.map (fun pr => pr.1) := List.mem_map_of_mem _ hm2
        have : a.1 ≠ k := fun hak => hna (hak ▸ hk)
        simpa using this
      by_cases hqa : q a = true
      · rw [List.filter_cons, if_pos hqa, List.find?_cons_of_neg _ (by simp [hne])]
        exact ih hnr hm2
      · rw [List.filter_cons, if_neg hqa]
        exact ih hnr hm2

theorem find_filter_none_of_removed {c : Cache} {k : Str} {e : CacheEntry}
    {q : Str × CacheEntry → Bool}
    (hw : (c.map (fun pr => pr.1)).Nodup) (hm : (k, e) ∈ c) (hq : q (k, e) = false) :
    (c.filter q).find? (fun pr => pr.1 == k) = none := by
  rw [List.find?_eq_none]
  rintro ⟨x1, x2⟩ hx hbeq
  have hx1 : x1 = k := by simpa using hbeq
  subst hx1
  have hxc := (List.mem_filter.mp hx).1
  have hqx := (List.mem_filter.mp hx).2
  have hxe : x2 = e := mem_keys_unique hw hxc hm
  subst hxe
  rw [hq] at hqx
  cases hqx

/-- C5 — Cache invalidation selectivity: for any cache state (a `Map`,
so keys are unique) and any non-empty file path `p` (the claim
contrasts the given path with entries having "no file", i.e. an empty
tag, so the path itself is a real one), `invalidate(p)` makes every
key tagged `p` miss, leaves every entry tagged differently (including
commit-scoped entries with an empty tag) hitting with its old payload,
and `invalidate()` with no argument removes every entry. -/
theorem cache_invalidate_selective (c : Cache) (p k : Str) (e : CacheEntry)
    (hp : p ≠ []) (hw : (c.map (fun pr => pr.1)).Nodup) (hk : (k, e) ∈ c) :
    (e.filePath = p → cacheGet (cacheInvalidate (some p) c) k = none)
    ∧ (e.filePath ≠ p → cacheGet (cacheInvalidate (some p) c) k = some e.data)
    ∧ cacheGet (cacheInvalidate none c) k = none := by
  have htruthy : jsTruthyStr (some p) = true := by
    cases p with
    | nil => exact absurd rfl hp
    | cons a b => rfl
  refine ⟨?_, ?_, rfl⟩
  · intro hfp
    unfold cacheInvalidate
    rw [if_pos htruthy]
    unfold cacheGet
    rw [find_filter_none_of_removed hw hk (by simp [hfp])]
    rfl
  · intro hfp
    unfold cacheInvalidate
    rw [if_pos htruthy]
    unfold cacheGet
    rw [find_filter_of_mem hw hk (by simpa using hfp)]
    rfl

/-- Demonstration cache for the C5 witness: an entry tagged `a`, one
tagged `b` and one commit-scoped entry with an empty tag. -/
def cacheDemo : Cache :=
  [(strL "k1", ⟨Payload.content (strL "x"), 0, strL "a", none⟩),
   (strL "k2", ⟨Payload.content (strL "y"), 0, strL "b", none⟩),
   (strL "k3", ⟨Payload.content (strL "z"), 0, [], some (strL "c")⟩)]

/-- C5 witness: after `invalidate("a")`, the key tagged `a` misses,
the key tagged `b` and the commit-scoped key still hit, and a bare
`invalidate()` clears everything. -/
theorem cache_invalidate_selective_witness :
    cacheGet (cacheInvalidate (some (strL "a")) cacheDemo) (strL "k1") = none
    ∧ cacheGet (cacheInvalidate (some (strL "a")) cacheDemo) (strL "k2")
        = some (Payload.content (strL "y"))
    ∧ cacheGet (cacheInvalidate (some (strL "a")) cacheDemo) (strL "k3")
        = some (Payload.content (strL "z"))
    ∧ cacheGet (cacheInvalidate none cacheDemo) (strL "k2") = none :=
  ⟨(cache_invalidate_selective cacheDemo (strL "a") (strL "k1")
      ⟨Payload.content (strL "x"), 0, strL "a", none⟩ (by decide) (by decide) (by decide)).1 rfl,
   (cache_invalidate_selective cacheDemo (strL "a") (strL "k2")
      ⟨Payload.content (strL "y"), 0, strL "b", none⟩ (by decide) (by decide) (by decide)).2.1 (by decide),
   (cache_invalidate_selective cacheDemo (strL "a") (strL "k3")
      ⟨Payload.content (strL "z"), 0, [], some (strL "c")⟩ (by decide) (by decide) (by decide)).2.1 (by decide),
   (cache_invalidate_selective cacheDemo (strL "a") (strL "k2")
      ⟨Payload.content (strL "y"), 0, strL "b", none⟩ (by decide) (by decide) (by decide)).2.2⟩

/-! ### Claim C8: the changed-files cache ignores the file argument -/

theorem find_map_set (c : Cache) (k : Str) (v : CacheEntry)
    (h : c.any (fun p => p.1 == k) = true) :
    (c.map (fun p => if p.1 == k then (k, v) else p)).find? (fun p => p.1 == k) = some (k, v) := by
  induction c with
  | nil => simp at h
  | cons e rest ih =>
    by_cases he : (e.1 == k) = true
    · simp only [List.map_cons, he, if_true]
      exact List.find?_cons_of_pos _ (by simp)
    · have h2 : rest.any (fun p => p.1 == k) = true := by
        simp only [List.any_cons, Bool.or_eq_true] at h
        rcases h with h | h
        · exact absurd h he
        · exact h
      simp only [List.map_cons, he, if_false]
      rw [List.find?_cons_of_neg _ (by simp [he])]
      exact ih h2

theorem find_append_set (c : Cache) (k : Str) (v : CacheEntry)
    (h : c.any (fun p => p.1 == k) = false) :
    (c ++ [(k, v)]).find? (fun p => p.1 == k) = some (k, v) := by
  induction c with
  | nil => exact List.find?_cons_of_pos _ (by simp)
  | cons e rest ih =>
    have he : (e.1 == k) = false := by
      simp only [List.any_cons, Bool.or_eq_false_iff] at h
      exact h.1
    have h2 : rest.any (fun p => p.1 == k) = false := by
      simp only [List.any_cons, Bool.or_eq_false_iff] at h
      exact h.2
    rw [List.cons_append, List.find?_cons_of_neg _ (by simp [he])]
    exact ih h2

theorem cacheGet_set_self (c : Cache) (k : Str) (d : Payload) (ts : Nat) (fp : Str)
    (ch : Option Str) : cacheGet (cacheSet c k d ts fp ch) k = some d := by
  unfold cacheGet cacheSet
  by_cases h : c.any (fun p => p.1 == k) = true
  · rw [if_pos h, find_map_set c k _ h]
    rfl
  · rw [if_neg h, find_append_set c k _ (Bool.eq_false_iff.mpr h)]
    rfl

theorem find_filter_map_set (c : Cache) (k : Str) (v : CacheEntry)
    (q : Str × CacheEntry → Bool) (hq : q (k, v) = true)
    (h : c.any (fun pr => pr.1 == k) = true) :
    ((c.map (fun pr => if pr.1 == k then (k, v) else pr)).filter q).find? (fun pr => pr.1 == k)
      = some (k, v) := by
  induction c with
  | nil => simp at h
  | cons e rest ih =>
    by_cases he : (e.1 == k) = true
    · simp only [List.map_cons, he, if_true, List.filter_cons, hq]
      exact List.find?_cons_of_pos _ (by simp)
    · have h2 : rest.any (fun pr => pr.1 == k) = true := by
        simp only [List.any_cons, Bool.or_eq_true] at h
        rcases h with h | h
        · exact absurd h he
        · exact h
      have hef : (e.1 == k) = false := Bool.eq_false_iff.mpr he
      simp only [List.map_cons, hef, Bool.false_eq_true, if_false, List.filter_cons]
      by_cases hqe : q e = true
      · rw [if_pos hqe, List.find?_cons_of_neg _ (by simp [hef])]
        exact ih h2
      · rw [if_neg hqe]
        exact ih h2

theorem find_filter_append (c : Cache) (k : Str) (v : CacheEntry)
    (q : Str × CacheEntry → Bool) (hq : q (k, v) = true)
    (h : c.any (fun pr => pr.1 == k) = false) :
    ((c ++ [(k, v)]).filter q).find? (fun pr => pr.1 == k) = some (k, v) := by
  induction c with
  | nil =>
    simp only [List.nil_append, List.filter_cons, hq]
    exact List.find?_cons_of_pos _ (by simp)
  | cons e rest ih =>
    have he : (e.1 == k) = false := by
      simp only [List.any_cons, Bool.or_eq_false_iff] at h
      exact h.1
    have h2 : rest.any (fun pr => pr.1 == k) = false := by
      simp only [List.any_cons, Bool.or_eq_false_iff] at h
      exact h.2
    rw [List.cons_append, List.filter_cons]
    by_cases hqe : q e = true
    · rw [if_pos hqe, List.find?_cons_of_neg _ (by simp [he])]
      exact ih h2
    · rw [if_neg hqe]
      exact ih h2

theorem cacheGet_invalidate_set (c : Cache) (p k : Str) (d : Payload) (ts : Nat)
    (ch : Option Str) (hp : p ≠ []) :
    cacheGet (cacheInvalidate (some p) (cacheSet c k d ts [] ch)) k = some d := by
  have htruthy : jsTruthyStr (some p) = true := by
    cases p with
    | nil => exact absurd rfl hp
    | cons a b => rfl
  have hq : (fun pr : Str × CacheEntry => !(pr.2.filePath == (some p).getD []))
      (k, ⟨d, ts, [], ch⟩) = true := by
    cases p with
    | nil => exact absurd rfl hp
    | cons a b => rfl
  unfold cacheInvalidate cacheSet cacheGet
  rw [if_pos htruthy]
  by_cases h : c.any (fun pr => pr.1 == k) = true
  · rw [if_pos h, find_filter_map_set c k _ _ hq h]
    rfl
  · rw [if_neg h, find_filter_append c k _ _ hq (Bool.eq_false_iff.mpr h)]
    rfl

/-- C8 — Changed-files cache ignores the file argument: the cache key of
`getChangedFiles` mentions only the commit hash, so after a first call
that consulted git and cached its parse, a second call with any
(possibly different, possibly absent) `filePath` argument returns the
cached list without consulting git and without changing the state; the
entry is stored with an empty `filePath` tag, so `invalidate(p)` for any
real (non-empty) path spares it, while a bare `invalidate()` evicts
it. -/
theorem changed_files_cache (env : GitEnv) (st : GitServiceState) (ch : Str)
    (fp1 fp2 : Option Str) (p : Str) (root raw : Str) (hp : p ≠ [])
    (hmiss : cacheGet st.cache (filesKey ch) = none)
    (hroot : (if jsTruthyStr fp1 then getRepoForFile env st (fp1.getD [])
              else some st.workspaceRoot) = some root)
    (hshow : env.showNameStatus root ch = Except.ok raw) :
    (getChangedFiles env st ch fp1).2.2 = true
    ∧ cacheGet ((getChangedFiles env st ch fp1).2.1).cache (filesKey ch)
        = some (Payload.files (getChangedFilesParse raw))
    ∧ getChangedFiles env ((getChangedFiles env st ch fp1).2.1) ch fp2
        = ((getChangedFiles env st ch fp1).1, (getChangedFiles env st ch fp1).2.1, false)
    ∧ getChangedFiles env { (getChangedFiles env st ch fp1).2.1 with
          cache := cacheInvalidate (some p) ((getChangedFiles env st ch fp1).2.1).cache } ch fp2
        = ((getChangedFiles env st ch fp1).1,
           { (getChangedFiles env st ch fp1).2.1 with
             cache := cacheInvalidate (some p) ((getChangedFiles env st ch fp1).2.1).cache },
           false)
    ∧ cacheGet (cacheInvalidate none ((getChangedFiles env st ch fp1).2.1).cache)
        (filesKey ch) = none := by
  have hcall1 : getChangedFiles env st ch fp1
      = (getChangedFilesParse raw,
         (⟨st.workspaceRoot, st.isGitRepo, st.submoduleRepos,
           cacheSet st.cache (filesKey ch)
             (Payload.files (getChangedFilesParse raw)) env.nowMs [] (some ch)⟩ : GitServiceState),
         true) := by
    simp only [getChangedFiles, getChangedFilesMiss, hmiss, hroot, hshow]
  have hget : cacheGet (cacheSet st.cache (filesKey ch)
      (.files (getChangedFilesParse raw)) env.nowMs [] (some ch)) (filesKey ch)
      = some (.files (getChangedFilesParse raw)) := cacheGet_set_self _ _ _ _ _ _
  refine ⟨by rw [hcall1], by rw [hcall1]; exact hget, ?_, ?_, ?_⟩
  · rw [hcall1]
    unfold getChangedFiles
    rw [hget]
    rfl
  · rw [hcall1]
    unfold getChangedFiles
    rw [cacheGet_invalidate_set st.cache p (filesKey ch) _ env.nowMs (some ch) hp]
    rfl
  · rw [hcall1]
    rfl

/-- C8 witness: a concrete run in which the first call stores the parse
of the scenario output and the cache then behaves as the theorem
states. -/
theorem changed_files_cache_witness :
    (getChangedFiles envScenario ⟨strL "/w", true, [], []⟩ (strL "abc123") none).2.2 = true
    ∧ cacheGet ((getChangedFiles envScenario ⟨strL "/w", true, [], []⟩ (strL "abc123") none).2.1).cache
        (filesKey (strL "abc123"))
        = some (Payload.files (getChangedFilesParse (strL "M\tsrc/a.ts\nA\tsrc/b.ts\nD\told.ts")))
    ∧ getChangedFiles envScenario
        ((getChangedFiles envScenario ⟨strL "/w", true, [], []⟩ (strL "abc123") none).2.1)
        (strL "abc123") (some (strL "/w/other.ts"))
        = ((getChangedFiles envScenario ⟨strL "/w", true, [], []⟩ (strL "abc123") none).1,
           (getChangedFiles envScenario ⟨strL "/w", true, [], []⟩ (strL "abc123") none).2.1, false)
    ∧ getChangedFiles envScenario
        { (getChangedFiles envScenario ⟨strL "/w", true, [], []⟩ (strL "abc123") none).2.1 with
          cache := cacheInvalidate (some (strL "/w/a.ts"))
            ((getChangedFiles envScenario ⟨strL "/w", true, [], []⟩ (strL "abc123") none).2.1).cache }
        (strL "abc123") (some (strL "/w/other.ts"))
        = ((getChangedFiles envScenario ⟨strL "/w", true, [], []⟩ (strL "abc123") none).1,
           { (getChangedFiles envScenario ⟨strL "/w", true, [], []⟩ (strL "abc123") none).2.1 with
             cache := cacheInvalidate (some (strL "/w/a.ts"))
               ((getChangedFiles envScenario ⟨strL "/w", true, [], []⟩ (strL "abc123") none).2.1).cache },
           false)
    ∧ cacheGet (cacheInvalidate none
        ((getChangedFiles envScenario ⟨strL "/w", true, [], []⟩ (strL "abc123") none).2.1).cache)
        (filesKey (strL "abc123")) = none :=
  changed_files_cache envScenario ⟨strL "/w", true, [], []⟩ (strL "abc123") none
    (some (strL "/w/other.ts")) (strL "/w/a.ts") (strL "/w")
    (strL "M\tsrc/a.ts\nA\tsrc/b.ts\nD\told.ts") (by decide) rfl rfl rfl

/-! ### Claim C9: cached empty payloads never serve as hits -/

theorem getFileContentMiss_consults (env : GitEnv) (st2 : GitServiceState) (ch fp root : Str)
    (hr : getRepoForFile env st2 fp = some root) :
    (getFileContentMiss env st2 ch fp).2.2 = true := by
  unfold getFileContentMiss
  rw [hr]
  cases hb : env.showBlob root (ch ++ ':' :: getRelativePathForRepo env fp root) <;> simp [hb]

theorem getFileContent_miss_then_refetch (env : GitEnv) (st : GitServiceState)
    (ch fp root : Str)
    (hroot : getRepoForFile env st fp = some root)
    (hfirst : getFileContent env st ch fp = getFileContentMiss env st ch fp)
    (hempty : (getFileContent env st ch fp).1 = []) :
    (getFileContent env ((getFileContent env st ch fp).2.1) ch fp).2.2 = true := by
  rw [hfirst] at hempty ⊢
  cases hb : env.showBlob root (ch ++ ':' :: getRelativePathForRepo env fp root) with
  | error e =>
    have hm : getFileContentMiss env st ch fp = ([], st, true) := by
      simp only [getFileContentMiss, hroot, hb]
    rw [hm]
    show (getFileContent env st ch fp).2.2 = true
    rw [hfirst]
    exact getFileContentMiss_consults env st ch fp root hroot
  | ok content =>
    have hm : getFileContentMiss env st ch fp
        = (content,
           (⟨st.workspaceRoot, st.isGitRepo, st.submoduleRepos,
             cacheSet st.cache (contentKey ch fp) (Payload.content content)
               env.nowMs fp (some ch)⟩ : GitServiceState),
           true) := by
      simp only [getFileContentMiss, hroot, hb]
    rw [hm] at hempty
    have hcontent : content = [] := hempty
    subst hcontent
    rw [hm]
    have hget : cacheGet (cacheSet st.cache (contentKey ch fp) (Payload.content [])
        env.nowMs fp (some ch)) (contentKey ch fp) = some (Payload.content []) :=
      cacheGet_set_self _ _ _ _ _ _
    have h2 : getFileContent env
        (⟨st.workspaceRoot, st.isGitRepo, st.submoduleRepos,
          cacheSet st.cache (contentKey ch fp) (Payload.content [])
            env.nowMs fp (some ch)⟩ : GitServiceState) ch fp
        = getFileContentMiss env
        (⟨st.workspaceRoot, st.isGitRepo, st.submoduleRepos,
          cacheSet st.cache (contentKey ch fp) (Payload.content [])
            env.nowMs fp (some ch)⟩ : GitServiceState) ch fp := by
      unfold getFileContent
      rw [hget]
      rfl
    rw [h2]
    exact getFileContentMiss_consults env _ ch fp root hroot

/-- C9 — Empty payloads never serve as cache hits: the service treats a
falsy cached payload as a miss, so after `getFileContent` returns the
empty string (whether the blob was empty or the query failed because the
path was absent at that revision), a subsequent call with the same
arguments re-invokes the underlying git query instead of being
short-circuited by the cache.  The well-formedness hypothesis records
that entries under content keys hold string payloads, which is the only
shape the service ever stores there. -/
theorem file_content_empty_refetch (env : GitEnv) (st : GitServiceState) (ch fp root : Str)
    (hroot : getRepoForFile env st fp = some root)
    (hwf : ∀ pl, cacheGet st.cache (contentKey ch fp) = some pl → ∃ s, pl = Payload.content s)
    (hempty : (getFileContent env st ch fp).1 = []) :
    (getFileContent env ((getFileContent env st ch fp).2.1) ch fp).2.2 = true := by
  cases hc : cacheGet st.cache (contentKey ch fp) with
  | some pl =>
    obtain ⟨s, rfl⟩ := hwf pl hc
    by_cases hs : (s == []) = true
    · have hfirst : getFileContent env st ch fp = getFileContentMiss env st ch fp := by
        unfold getFileContent
        rw [hc]
        simp [jsTruthy, hs]
      exact getFileContent_miss_then_refetch env st ch fp root hroot hfirst hempty
    · exfalso
      have hfirst : getFileContent env st ch fp = (s, st, false) := by
        unfold getFileContent
        rw [hc]
        simp [jsTruthy, hs, extractContent]
      rw [hfirst] at hempty
      have hse : s = [] := hempty
      exact hs (by simp [hse])
  | none =>
    have hfirst : getFileContent env st ch fp = getFileContentMiss env st ch fp := by
      unfold getFileContent
      rw [hc]
    exact getFileContent_miss_then_refetch env st ch fp root hroot hfirst hempty

/-- C9 witness: with an empty blob at the revision, the first call
returns the empty string and the second call consults git again. -/
theorem file_content_empty_refetch_witness :
    (getFileContent { envPosix with showBlob := fun _ _ => Except.ok [] }
        ((getFileContent { envPosix with showBlob := fun _ _ => Except.ok [] }
            ⟨strL "/w", true, [], []⟩ (strL "abc123") (strL "/w/a.ts")).2.1)
        (strL "abc123") (strL "/w/a.ts")).2.2 = true :=
  file_content_empty_refetch { envPosix with showBlob := fun _ _ => Except.ok [] }
    ⟨strL "/w", true, [], []⟩ (strL "abc123") (strL "/w/a.ts") (strL "/w") rfl
    (fun pl hpl => by cases hpl) rfl

/-! ### Claim C7: relativize on already-relative paths -/

/-- C7 (amended) — Relativize on already-relative paths: for every input
whose normalized form does not start with the normalized repository
root, `getRelativePathForRepo` returns the input with its backslashes
replaced by forward slashes and never throws; when the input contains no
backslash it is returned unchanged, and on such inputs applying the
function twice equals applying it once. -/
theorem relativize_untouched (env : GitEnv) (filePath repoRoot : Str)
    (hrel : (env.normalize repoRoot).isPrefixOf (env.normalize filePath) = false)
    (hbs : '\\' ∉ filePath) :
    getRelativePathForRepo env filePath repoRoot = filePath
    ∧ getRelativePathForRepo env (getRelativePathForRepo env filePath repoRoot) repoRoot
        = getRelativePathForRepo env filePath repoRoot := by
  have h1 : getRelativePathForRepo env filePath repoRoot = filePath := by
    unfold getRelativePathForRepo
    rw [if_neg (by simp [hrel])]
    exact replaceBackslashes_eq_self hbs
  refine ⟨h1, ?_⟩
  rw [h1]
  exact h1

/-- C7 witness: a relative path under the identity normalizer (which
agrees with node's `path.normalize` on this input). -/
theorem relativize_untouched_witness :
    getRelativePathForRepo envPosix (strL "src/a.ts") (strL "/repo") = strL "src/a.ts"
    ∧ getRelativePathForRepo envPosix
        (getRelativePathForRepo envPosix (strL "src/a.ts") (strL "/repo")) (strL "/repo")
        = getRelativePathForRepo envPosix (strL "src/a.ts") (strL "/repo") :=
  relativize_untouched envPosix (strL "src/a.ts") (strL "/repo") (by decide) (by decide)

/-- C7 counterexample — "returns the input unchanged" is false: a
relative path containing a backslash is returned with the backslash
replaced by a forward slash (the function ends in
`filePath.replace(/\\/g, '/')` on the non-matching branch).  The
identity normalizer agrees with node's `path.normalize` on these
already-normal inputs. -/
theorem relativize_counterexample :
    getRelativePathForRepo envPosix (strL "src\\a.ts") (strL "/repo") = strL "src/a.ts"
    ∧ strL "src/a.ts" ≠ strL "src\\a.ts"
    ∧ (envPosix.normalize (strL "/repo")).isPrefixOf (envPosix.normalize (strL "src\\a.ts"))
        = false := by
  refine ⟨by decide, by decide, by decide⟩

/-! ### Claim C10: buildFileTree sorts the caller's array in place -/

theorem pathLe_trans : ∀ a b c : ChangedFile,
    pathLe a b = true → pathLe b c = true → pathLe a c = true :=
  fun _ _ _ h1 h2 => strLe_trans h1 h2

theorem pathLe_total : ∀ a b : ChangedFile, pathLe a b = true ∨ pathLe b a = true :=
  fun a b => strLe_total a.path b.path

/-- C10 — Tree building mutates its input: `buildFileTree` sorts the
caller's `files` array in place before inserting, so after the call the
caller's array is the path-sorted permutation of what was passed (its
first component models that final array state); in particular an
unsorted input is not left unchanged. -/
theorem build_mutates_input :
    (∀ (cfp : Option Str) (afe : Bool) (ch : Str) (files : List ChangedFile),
       (buildFileTree cfp afe ch files).1 = sortLe pathLe files
       ∧ List.Perm (buildFileTree cfp afe ch files).1 files
       ∧ List.Pairwise (fun a b : ChangedFile => pathLe a b = true) (buildFileTree cfp afe ch files).1)
    ∧ (buildFileTree none false (strL "c") [⟨strL "b.ts", .modified⟩, ⟨strL "a.ts", .added⟩]).1
        ≠ [⟨strL "b.ts", FileStatus.modified⟩, ⟨strL "a.ts", FileStatus.added⟩] := by
  constructor
  · intro cfp afe ch files
    refine ⟨rfl, sortLe_perm pathLe files, ?_⟩
    exact sortLe_pairwise pathLe_trans pathLe_total files
  · decide

/-! ### Claim C4: folder-children ordering -/

theorem nodeLe_total : ∀ a b : TreeItem, nodeLe a b = true ∨ nodeLe b a = true := by
  intro a b
  unfold nodeLe
  cases ha : isFolderItem a <;> cases hb : isFolderItem b
  · simpa using strLe_total (itemLabel a) (itemLabel b)
  · right; simp
  · left; simp
  · simpa using strLe_total (itemLabel a) (itemLabel b)

theorem nodeLe_trans : ∀ a b c : TreeItem,
    nodeLe a b = true → nodeLe b c = true → nodeLe a c = true := by
  intro a b c h1 h2
  unfold nodeLe at h1 h2 ⊢
  cases ha : isFolderItem a <;> cases hb : isFolderItem b <;> cases hc : isFolderItem c <;>
    simp [ha, hb, hc] at h1 h2 ⊢ <;>
    exact strLe_trans h1 h2

/-- Ordering required by the claim between two adjacent children: a
folder never follows a file, and within the same kind the display names
are in order. -/
def nodeOrdered (a b : TreeItem) : Prop :=
  (isFolderItem a = true ∧ isFolderItem b = false)
  ∨ (isFolderItem a = isFolderItem b ∧ strLe (itemLabel a) (itemLabel b) = true)

theorem nodeLe_imp_ordered {a b : TreeItem} (h : nodeLe a b = true) : nodeOrdered a b := by
  unfold nodeLe at h
  cases ha : isFolderItem a <;> cases hb : isFolderItem b <;>
    simp [nodeOrdered, ha, hb] at h ⊢ <;> exact h

/-- C4 — Folder-children ordering: in the tree returned by the builder,
every folder's child list is pairwise ordered with all Folder entries
before all File entries and each of the two groups alphabetically
ordered by display name (the lists are re-sorted with exactly this
tie-break rule before the tree is returned). -/
theorem folder_children_ordered (cfp : Option Str) (afe : Bool) (ch : Str)
    (files : List ChangedFile) (p : Str) (items : List TreeItem)
    (hmem : (p, items) ∈ (buildFileTree cfp afe ch files).2) :
    List.Pairwise nodeOrdered items := by
  have hrw : (buildFileTree cfp afe ch files).2
      = ((sortLe pathLe files).foldl (insertOneFile cfp afe ch) ([], [])).2.map
          (fun pr => (pr.1, sortLe nodeLe pr.2)) := rfl
  rw [hrw] at hmem
  obtain ⟨pr, hpr, heq⟩ := List.mem_map.mp hmem
  have h2 : items = sortLe nodeLe pr.2 := ((Prod.mk.injEq _ _ _ _).mp heq).2.symm
  rw [h2]
  exact (sortLe_pairwise nodeLe_trans nodeLe_total pr.2).imp (fun h => nodeLe_imp_ordered h)

/-- C4 witness: the root children of the end-to-end scenario tree (one
folder before one file) satisfy the ordering. -/
theorem folder_children_ordered_witness :
    (([], [TreeItem.folder (strL "src") (strL "src") false,
           TreeItem.file (strL "old.ts") (strL "c1") (strL "old.ts") true FileStatus.deleted])
        ∈ (buildFileTree none false (strL "c1")
            [⟨strL "src/a.ts", .modified⟩, ⟨strL "src/b.ts", .added⟩,
             ⟨strL "old.ts", .deleted⟩]).2)
    ∧ List.Pairwise nodeOrdered
        [TreeItem.folder (strL "src") (strL "src") false,
         TreeItem.file (strL "old.ts") (strL "c1") (strL "old.ts") true FileStatus.deleted] :=
  ⟨by decide,
   folder_children_ordered none false (strL "c1")
     [⟨strL "src/a.ts", .modified⟩, ⟨strL "src/b.ts", .added⟩, ⟨strL "old.ts", .deleted⟩]
     [] _ (by decide)⟩

/-! ### Claim C3: AutoExpandTo behaviour -/

theorem folderStates_mem {t : FileTree} {q : Str} {e : Bool} :
    (q, e) ∈ folderStates t ↔ ∃ pr ∈ t, ∃ lab, TreeItem.folder lab q e ∈ pr.2 := by
  unfold folderStates
  constructor
  · intro h
    obtain ⟨l, hl, hmem⟩ := List.mem_flatten.mp h
    obtain ⟨pr, hpr, rfl⟩ := List.mem_map.mp hl
    obtain ⟨it, hit, hfm⟩ := List.mem_filterMap.mp hmem
    cases it with
    | file lab chh fp cur stt => simp [folderEntry] at hfm
    | folder lab q2 e2 =>
      have h2 : q2 = q ∧ e2 = e := by
        simpa [folderEntry] using hfm
      obtain ⟨rfl, rfl⟩ := h2
      exact ⟨pr, hpr, lab, hit⟩
  · rintro ⟨pr, hpr, lab, hit⟩
    refine List.mem_flatten.mpr ⟨_, List.mem_map_of_mem _ hpr, ?_⟩
    exact List.mem_filterMap.mpr ⟨_, hit, rfl⟩

/-- Invariant of tree construction: every folder item carries the
`allFoldersExpanded` flag as its `expanded` state. -/
def ItemsOk (afe : Bool) (t : FileTree) : Prop :=
  ∀ pr ∈ t, ∀ it ∈ pr.2, ∀ lab q e, it = TreeItem.folder lab q e → e = afe

theorem treeGet_mem {t : FileTree} {k : Str} {it : TreeItem} (h : it ∈ treeGet t k) :
    ∃ pr ∈ t, it ∈ pr.2 := by
  unfold treeGet at h
  cases hf : t.find? (fun p => p.1 == k) with
  | none => rw [hf] at h; cases h
  | some pr =>
    rw [hf] at h
    exact ⟨pr, List.mem_of_find?_eq_some hf, h⟩

theorem ItemsOk_treeSet {afe : Bool} {t : FileTree} {k : Str} {v : List TreeItem}
    (ht : ItemsOk afe t)
    (hv : ∀ it ∈ v, ∀ lab q e, it = TreeItem.folder lab q e → e = afe) :
    ItemsOk afe (treeSet t k v) := by
  intro pr hpr it hit lab q e heq
  unfold treeSet at hpr
  by_cases hany : t.any (fun p => p.1 == k) = true
  · rw [if_pos hany] at hpr
    obtain ⟨pr0, hpr0, heq0⟩ := List.mem_map.mp hpr
    by_cases hk : (pr0.1 == k) = true
    · simp only [hk, if_true] at heq0
      subst heq0
      exact hv it hit lab q e heq
    · have hkf : (pr0.1 == k) = false := Bool.eq_false_iff.mpr hk
      simp only [hkf, Bool.false_eq_true, if_false] at heq0
      subst heq0
      exact ht pr0 hpr0 it hit lab q e heq
  · rw [if_neg hany] at hpr
    rcases List.mem_append.mp hpr with h | h
    · exact ht pr h it hit lab q e heq
    · have : pr = (k, v) := by simpa using h
      subst this
      exact hv it hit lab q e heq

theorem insertFolders_ok (afe : Bool) :
    ∀ (parts : List Str) (cp : Str) (fs : List Str) (t : FileTree),
      ItemsOk afe t → ItemsOk afe (insertFolders afe parts cp fs t).2.2
  | [], _, _, _, ht => ht
  | [_], _, _, _, ht => ht
  | name :: x :: rest, cp, fs, t, ht => by
    have ht2 : ItemsOk afe
        (if fs.any (fun q => q == (if cp = [] then name else cp ++ '/' :: name))
         then (fs, t)
         else ((if cp = [] then name else cp ++ '/' :: name) :: fs,
           treeSet t cp (treeGet t cp
             ++ [TreeItem.folder name (if cp = [] then name else cp ++ '/' :: name) afe]))).2 := by
      by_cases hany : fs.any (fun q => q == (if cp = [] then name else cp ++ '/' :: name)) = true
      · rw [if_pos hany]
        exact ht
      · rw [if_neg hany]
        refine ItemsOk_treeSet ht ?_
        intro it hit lab q e heq
        rcases List.mem_append.mp hit with h | h
        · obtain ⟨pr, hpr, hin⟩ := treeGet_mem h
          exact ht pr hpr it hin lab q e heq
        · have : it = TreeItem.folder name (if cp = [] then name else cp ++ '/' :: name) afe := by
            simpa using h
          subst this
          exact (TreeItem.folder.injEq _ _ _ _ _ _ |>.mp heq).2.2.symm
    show ItemsOk afe (insertFolders afe (x :: rest) _ _ _).2.2
    exact insertFolders_ok afe (x :: rest) _ _ _ ht2

theorem insertOneFile_ok (cfp : Option Str) (afe : Bool) (ch : Str)
    (acc : List Str × FileTree) (fi : ChangedFile) (ht : ItemsOk afe acc.2) :
    ItemsOk afe (insertOneFile cfp afe ch acc fi).2 := by
  unfold insertOneFile
  refine ItemsOk_treeSet (insertFolders_ok afe _ _ _ _ ht) ?_
  intro it hit lab q e heq
  rcases List.mem_append.mp hit with h | h
  · obtain ⟨pr, hpr, hin⟩ := treeGet_mem h
    exact insertFolders_ok afe _ _ _ _ ht pr hpr it hin lab q e heq
  · rw [List.mem_singleton] at h
    rw [h] at heq
    cases heq

theorem foldl_insert_ok (cfp : Option Str) (afe : Bool) (ch : Str) :
    ∀ (fs : List ChangedFile) (acc : List Str × FileTree),
      ItemsOk afe acc.2 → ItemsOk afe (fs.foldl (insertOneFile cfp afe ch) acc).2 := by
  intro fs
  induction fs with
  | nil => intro acc ht; exact ht
  | cons f rest ih =>
    intro acc ht
    exact ih _ (insertOneFile_ok cfp afe ch acc f ht)

theorem build_folders_flag (cfp : Option Str) (afe : Bool) (ch : Str)
    (files : List ChangedFile) :
    ∀ q e, (q, e) ∈ folderStates (buildFileTree cfp afe ch files).2 → e = afe := by
  intro q e h
  obtain ⟨pr, hpr, lab, hit⟩ := folderStates_mem.mp h
  have hrw : (buildFileTree cfp afe ch files).2
      = ((sortLe pathLe files).foldl (insertOneFile cfp afe ch) ([], [])).2.map
          (fun pr => (pr.1, sortLe nodeLe pr.2)) := rfl
  rw [hrw] at hpr
  obtain ⟨pr0, hpr0, heq⟩ := List.mem_map.mp hpr
  have h2 : pr.2 = sortLe nodeLe pr0.2 := ((Prod.mk.injEq _ _ _ _).mp heq.symm).2
  rw [h2] at hit
  have hit2 : TreeItem.folder lab q e ∈ pr0.2 := (sortLe_perm nodeLe pr0.2).mem_iff.mp hit
  have hok : ItemsOk afe ((sortLe pathLe files).foldl (insertOneFile cfp afe ch) ([], [])).2 :=
    foldl_insert_ok cfp afe ch (sortLe pathLe files) ([], []) (by intro pr hpr; cases hpr)
  exact hok pr0 hpr0 _ hit2 lab q e rfl

theorem items_expand_filterMap (name cur : Str) (items : List TreeItem) :
    (items.map (expandItem name cur)).filterMap folderEntry
      = (items.filterMap folderEntry).map (fun pr => if pr.1 = cur then (cur, true) else pr) := by
  induction items with
  | nil => rfl
  | cons it rest ih =>
    cases it with
    | file lab chh fp cf stt =>
      simp only [List.map_cons, List.filterMap_cons, expandItem, folderEntry]
      exact ih
    | folder lab q e =>
      by_cases hq : (q == cur) = true
      · have hq2 : q = cur := by simpa using hq
        subst hq2
        simp only [List.map_cons, List.filterMap_cons, expandItem, folderEntry,
          beq_self_eq_true, if_true, if_pos rfl]
        rw [ih]
      · have hqf : (q == cur) = false := Bool.eq_false_iff.mpr hq
        have hq2 : ¬ (q = cur) := by simpa using hqf
        simp only [List.map_cons, List.filterMap_cons, expandItem, folderEntry, hqf,
          Bool.false_eq_true, if_false, if_neg hq2]
        rw [ih]

theorem folderStates_expandStep (name cur : Str) (t : FileTree) :
    folderStates (expandStep name cur t)
      = (folderStates t).map (fun pr => if pr.1 = cur then (cur, true) else pr) := by
  unfold folderStates expandStep
  rw [List.map_map, List.map_flatten, List.map_map]
  congr 1
  apply List.map_congr_left
  intro pr _
  exact items_expand_filterMap name cur pr.2

theorem folderStates_expandLoop :
    ∀ (parts : List Str) (acc : Str) (t : FileTree),
      folderStates (expandLoop parts acc t)
        = (folderStates t).map
            (fun pr => if pr.1 ∈ ancestorPaths parts acc then (pr.1, true) else pr)
  | [], acc, t => by
    simp [expandLoop, ancestorPaths]
  | [x], acc, t => by
    simp [expandLoop, ancestorPaths]
  | name :: x :: rest, acc, t => by
    show folderStates (expandLoop (x :: rest) (if acc = [] then name else acc ++ '/' :: name)
        (expandStep name (if acc = [] then name else acc ++ '/' :: name) t)) = _
    rw [folderStates_expandLoop (x :: rest) _ _, folderStates_expandStep, List.map_map]
    apply List.map_congr_left
    intro pr _
    show (fun pr2 => if pr2.1 ∈ ancestorPaths (x :: rest)
          (if acc = [] then name else acc ++ '/' :: name) then (pr2.1, true) else pr2)
        ((fun pr2 => if pr2.1 = (if acc = [] then name else acc ++ '/' :: name)
          then ((if acc = [] then name else acc ++ '/' :: name), true) else pr2) pr)
      = if pr.1 ∈ ancestorPaths (name :: x :: rest) acc then (pr.1, true) else pr
    have hanc : ancestorPaths (name :: x :: rest) acc
        = (if acc = [] then name else acc ++ '/' :: name)
          :: ancestorPaths (x :: rest) (if acc = [] then name else acc ++ '/' :: name) := rfl
    rw [hanc]
    by_cases h1 : pr.1 = (if acc = [] then name else acc ++ '/' :: name)
    · simp only [h1, if_pos rfl]
      by_cases h2 : (if acc = [] then name else acc ++ '/' :: name)
          ∈ ancestorPaths (x :: rest) (if acc = [] then name else acc ++ '/' :: name)
      · simp [h2]
      · simp [h2]
    · simp only [if_neg h1]
      by_cases h2 : pr.1 ∈ ancestorPaths (x :: rest) (if acc = [] then name else acc ++ '/' :: name)
      · simp [h2, List.mem_cons, h1]
      · simp [h2, List.mem_cons, h1]

/-- C3 (amended) — AutoExpandTo behaviour: building in auto mode (all
folders created collapsed) and expanding to the current file locates the
File node by exact resolved-relative path only.  When no exact match
exists the tree is returned unchanged — there is no suffix/basename
fallback — and when an exact match exists, exactly the Folder nodes on
the matched path's ancestor chain end up `expanded = true`, every other
folder remaining `expanded = false`. -/
theorem auto_expand_exact (env : GitEnv) (st : GitServiceState) (cfp : Str) (ch : Str)
    (files : List ChangedFile) (hcfp : cfp ≠ []) :
    (treeHasFileWithPath (buildFileTree (some cfp) false ch files).2
        (resolveRelative env st cfp) = false →
      expandFoldersToCurrentFile env st (some cfp) (buildFileTree (some cfp) false ch files).2
        = (buildFileTree (some cfp) false ch files).2)
    ∧ (treeHasFileWithPath (buildFileTree (some cfp) false ch files).2
        (resolveRelative env st cfp) = true →
      ∀ q e, (q, e) ∈ folderStates (expandFoldersToCurrentFile env st (some cfp)
            (buildFileTree (some cfp) false ch files).2)
        → (e = true ↔ q ∈ ancestorPaths (splitPathSegs (resolveRelative env st cfp)) [])) := by
  have htruthy : jsTruthyStr (some cfp) = true := by
    cases cfp with
    | nil => exact absurd rfl hcfp
    | cons a b => rfl
  constructor
  · intro hnone
    unfold expandFoldersToCurrentFile
    rw [if_pos htruthy]
    rw [if_neg (by simp [hnone])]
  · intro hfound q e hmem
    simp only [expandFoldersToCurrentFile, htruthy, if_true, Option.getD_some, hfound] at hmem
    rw [folderStates_expandLoop] at hmem
    obtain ⟨pr0, hpr0, heq⟩ := List.mem_map.mp hmem
    have he0 : pr0.2 = false := build_folders_flag (some cfp) false ch files pr0.1 pr0.2
      (by rw [Prod.mk.eta]; exact hpr0)
    by_cases hin : pr0.1 ∈ ancestorPaths (splitPathSegs (resolveRelative env st cfp)) []
    · rw [if_pos hin] at heq
      have hq : q = pr0.1 := ((Prod.mk.injEq _ _ _ _).mp heq.symm).1
      have he : e = true := ((Prod.mk.injEq _ _ _ _).mp heq.symm).2
      constructor
      · intro _
        rw [hq]
        exact hin
      · intro _
        exact he
    · rw [if_neg hin] at heq
      have hq : q = pr0.1 := (congrArg Prod.fst heq).symm
      have he : e = pr0.2 := (congrArg Prod.snd heq).symm
      constructor
      · intro het
        rw [he, he0] at het
        cases het
      · intro hqin
        rw [hq] at hqin
        exact absurd hqin hin

/-- Service state used for concrete tree statements: no repository
detected, so the current file path resolves to itself. -/
def stNoRepo : GitServiceState := ⟨strL "/w", false, [], []⟩

/-- C3 witness: with target `src/a.ts` present exactly, its ancestor
folder `src` ends expanded and the sibling branch `lib` stays
collapsed. -/
theorem auto_expand_exact_witness :
    (treeHasFileWithPath (buildFileTree (some (strL "src/a.ts")) false (strL "c1")
        [⟨strL "src/a.ts", .modified⟩, ⟨strL "lib/b.ts", .added⟩]).2
        (resolveRelative envPosix stNoRepo (strL "src/a.ts")) = false →
      expandFoldersToCurrentFile envPosix stNoRepo (some (strL "src/a.ts"))
          (buildFileTree (some (strL "src/a.ts")) false (strL "c1")
            [⟨strL "src/a.ts", .modified⟩, ⟨strL "lib/b.ts", .added⟩]).2
        = (buildFileTree (some (strL "src/a.ts")) false (strL "c1")
            [⟨strL "src/a.ts", .modified⟩, ⟨strL "lib/b.ts", .added⟩]).2)
    ∧ (treeHasFileWithPath (buildFileTree (some (strL "src/a.ts")) false (strL "c1")
        [⟨strL "src/a.ts", .modified⟩, ⟨strL "lib/b.ts", .added⟩]).2
        (resolveRelative envPosix stNoRepo (strL "src/a.ts")) = true →
      ∀ q e, (q, e) ∈ folderStates (expandFoldersToCurrentFile envPosix stNoRepo
            (some (strL "src/a.ts"))
            (buildFileTree (some (strL "src/a.ts")) false (strL "c1")
              [⟨strL "src/a.ts", .modified⟩, ⟨strL "lib/b.ts", .added⟩]).2)
        → (e = true ↔ q ∈ ancestorPaths
            (splitPathSegs (resolveRelative envPosix stNoRepo (strL "src/a.ts"))) [])) :=
  auto_expand_exact envPosix stNoRepo (strL "src/a.ts") (strL "c1")
    [⟨strL "src/a.ts", .modified⟩, ⟨strL "lib/b.ts", .added⟩] (by decide)

/-- Commit tree of the C3 counterexample: one file `src/a.ts`, built in
auto mode while the current file is `other/a.ts`. -/
def treeCE : FileTree :=
  (buildFileTree (some (strL "other/a.ts")) false (strL "c1")
    [⟨strL "src/a.ts", .modified⟩]).2

/-- C3 counterexample — the claimed suffix/basename fallback does not
exist: the resolved target `other/a.ts` has no exact match in the tree,
`src/a.ts` matches it by basename (`a.ts`), yet the expansion returns
the tree unchanged and the ancestor folder `src` of the basename match
remains collapsed, where the claim requires it to be expanded. -/
theorem auto_expand_counterexample :
    expandFoldersToCurrentFile envPosix stNoRepo (some (strL "other/a.ts")) treeCE = treeCE
    ∧ treeHasFileWithPath treeCE (resolveRelative envPosix stNoRepo (strL "other/a.ts")) = false
    ∧ basenamePosix (strL "other/a.ts") = strL "a.ts"
    ∧ (strL "a.ts").isSuffixOf (strL "src/a.ts") = true
    ∧ (strL "src", false) ∈ folderStates treeCE
    ∧ (strL "src", false) ∈ folderStates
        (expandFoldersToCurrentFile envPosix stNoRepo (some (strL "other/a.ts")) treeCE) := by
  refine ⟨by decide, by decide, by decide, by decide, by decide, by decide⟩
